import Mathlib

/-!
Verification development for the Inox runtime core.

This file gives a shallow embedding, in Lean 4, of selected parts of the
Inox repository and proves or refutes the specification claims about them:

- the safe 64-bit integer arithmetic helpers (intAdd, intSub, intMul, intDiv);
- the permission model (permission kinds and the Includes relation of the
  permission variants) and the NotAllowedError construction;
- the meta filesystem (metadata key-value store, OpenFile, MkdirAll, Rename,
  Remove, Stat);
- the shared Set container (transactional add/remove/has and the
  transaction-end callback);
- small models, built from the specification text, of the mutation
  re-parenting behavior and of the CPU-time decrementer (their
  implementations are not part of the source tree under study).

Go machine integers are modelled as Int with explicit bounds, Go strings as
String (a list of characters), Go maps and the key-value store as
association lists, Go panics as explicit error outcomes.  Functions are
translated line by line from the Go source; known slips of the source are
preserved intact and called out in comments.
-/

/-! ## Shared list and string helpers -/

/-- Removal of the first occurrence of a string in a list.  This models both
utils.RemoveIndexOfSlice applied at the index of the first match (as done in
the meta filesystem) and slices.Delete at slices.Index (as done in the Set
container): in both call sites the removed index is the first index whose
element equals the searched value, and absence is a no-op. -/
def removeFirstOcc : List String → String → List String
  | [], _ => []
  | x :: xs, y => if x = y then xs else x :: removeFirstOcc xs y

/-- Lookup in an association list, modelling a Go map read m[k]. -/
def assocFind : List (String × String) → String → Option String
  | [], _ => none
  | (k2, v) :: rest, k => if k2 = k then some v else assocFind rest k

/-- Update of an association list, modelling a Go map write m[k] = v. -/
def assocSet : List (String × String) → String → String → List (String × String)
  | [], k, v => [(k, v)]
  | (k2, v2) :: rest, k, v =>
    if k2 = k then (k2, v) :: rest else (k2, v2) :: assocSet rest k v

/-- Deletion from an association list, modelling the Go builtin delete(m, k). -/
def assocErase : List (String × String) → String → List (String × String)
  | [], _ => []
  | (k2, v2) :: rest, k => if k2 = k then rest else (k2, v2) :: assocErase rest k

/-- Go strings.HasPrefix(s, pre). -/
def strHasPfx (s pre : String) : Bool := pre.data.isPrefixOf s.data

/-- Go strings.HasSuffix(s, suf). -/
def strHasSfx (s suf : String) : Bool := suf.data.isSuffixOf s.data

/-- Go strings.TrimPrefix(s, pre). -/
def strTrimPfx (s pre : String) : String :=
  if pre.data.isPrefixOf s.data then ⟨s.data.drop pre.data.length⟩ else s

/-! ## Safe 64-bit integer arithmetic (internal/core number helpers) -/

def maxInt64 : Int := 9223372036854775807

def minInt64 : Int := -9223372036854775808

/-- A value is representable in a signed 64-bit integer. -/
def inRange64 (n : Int) : Prop := minInt64 ≤ n ∧ n ≤ maxInt64

instance (n : Int) : Decidable (inRange64 n) := by
  unfold inRange64; infer_instance

inductive IntArithError
  | overflow
  | underflow
  | divisionByZero
deriving DecidableEq

/-- Port of intAdd: adds l and r, reporting overflow and underflow instead of
wrapping around. -/
def intAdd (l r : Int) : Except IntArithError Int :=
  if r > 0 then
    if l > maxInt64 - r then .error .overflow else .ok (l + r)
  else
    if l < minInt64 - r then .error .underflow else .ok (l + r)

/-- Port of intSub: subtracts r from l, reporting overflow and underflow
instead of wrapping around. -/
def intSub (l r : Int) : Except IntArithError Int :=
  if r < 0 then
    if l > maxInt64 + r then .error .overflow else .ok (l - r)
  else
    if l < minInt64 + r then .error .underflow else .ok (l - r)

/-- Port of intMul: multiplies l and r, reporting overflow and underflow
instead of wrapping around.  Go integer division truncates toward zero, which
is Int.tdiv. -/
def intMul (l r : Int) : Except IntArithError Int :=
  if r > 0 then
    if l > maxInt64.tdiv r ∨ l < minInt64.tdiv r then .error .overflow else .ok (l * r)
  else if r < 0 then
    if r = -1 then
      if l = minInt64 then .error .overflow else .ok (l * r)
    else
      if l < maxInt64.tdiv r ∨ l > minInt64.tdiv r then .error .underflow else .ok (l * r)
  else .ok (l * r)

/-- Port of intDiv: divides l by r (Go division truncates toward zero),
reporting division by zero and the single overflowing case. -/
def intDiv (l r : Int) : Except IntArithError Int :=
  if r = 0 then .error .divisionByZero
  else if l = minInt64 ∧ r = -1 then .error .overflow
  else .ok (l.tdiv r)

/-! ## Permission kinds (internal/permkind) -/

inductive PermissionKind
  | read
  | write
  | delete
  | use
  | consume
  | provide
  | see
  | update
  | create
  | writeStream
deriving DecidableEq, Fintype

/-- The integer value of each permission-kind constant: the seven major kinds
are low bits, the three minor kinds are WritePerm plus a high bit. -/
def PermissionKind.encode : PermissionKind → Nat
  | .read => 1
  | .write => 2
  | .delete => 4
  | .use => 8
  | .consume => 16
  | .provide => 32
  | .see => 64
  | .update => 2 + 65536
  | .create => 2 + 131072
  | .writeStream => 2 + 262144

/-- Port of PermissionKind.Major: the low byte of the kind value. -/
def PermissionKind.major (k : PermissionKind) : Nat := k.encode &&& 255

/-- Port of PermissionKind.IsMajor. -/
def PermissionKind.isMajorKind (k : PermissionKind) : Bool := k.encode == k.encode &&& 255

/-- Port of PermissionKind.IsMinor. -/
def PermissionKind.isMinorKind (k : PermissionKind) : Bool := k.encode != k.encode &&& 255

/-- Port of PermissionKind.Includes: the majors must agree and either the
receiver is a major kind and the argument a minor one, or the kinds are
equal. -/
def PermissionKind.Includes (k o : PermissionKind) : Bool :=
  (k.major == o.major) && ((k.isMajorKind && o.isMinorKind) || (k.encode == o.encode))

/-- Port of the PERMISSION_KINDS name table used by PermissionKind.String. -/
def PermissionKind.toName : PermissionKind → String
  | .read => "read"
  | .write => "write"
  | .delete => "delete"
  | .use => "use"
  | .consume => "consume"
  | .provide => "provide"
  | .see => "see"
  | .update => "update"
  | .create => "create"
  | .writeStream => "write-stream"

/-! ## Permission subjects and the Includes relation (core permissions) -/

/-- Subject of a FilesystemPermission: a Path or a PathPattern. -/
inductive FsEntity
  | path (p : String)
  | pathPattern (patt : String)
deriving DecidableEq

/-- Subject of an HttpPermission: URL, URLPattern, Host or HostPattern. -/
inductive HttpEntity
  | url (u : String)
  | urlPattern (patt : String)
  | host (h : String)
  | hostPattern (patt : String)
deriving DecidableEq

/-- Subject of a DNSPermission or RawTcpPermission: Host or HostPattern. -/
inductive DomainEntity
  | host (h : String)
  | hostPattern (patt : String)
deriving DecidableEq

/-- Command name of a CommandPermission: string, Path or PathPattern. -/
inductive CommandName
  | str (s : String)
  | path (p : String)
  | pathPattern (patt : String)
deriving DecidableEq

/-- Modelled from the spec: IsPrefixPattern is not under src/. Prefix path and
URL patterns are written with a trailing "/..." segment (the manifest examples
of the README use the same shape), so a pattern is a prefix pattern when it
ends in "/...". -/
def isPfxPatt (patt : String) : Bool := strHasSfx patt "/..."

/-- Go strings.ReplaceAll(s, "/...", "/"), character by character, replacing
non-overlapping occurrences from the left. -/
def replaceDotsChars : List Char → List Char
  | '/' :: '.' :: '.' :: '.' :: rest => '/' :: replaceDotsChars rest
  | c :: rest => c :: replaceDotsChars rest
  | [] => []

def replaceDotSlash (s : String) : String := ⟨replaceDotsChars s.data⟩

/-- Modelled from the spec: PathPattern.Test is not under src/. A pattern
matches literal paths only ("pattern matches literal"): a prefix pattern
matches the paths starting with its prefix, any other pattern matches the
equal literal; values that are not paths do not match. -/
def pathPatternTestFs (patt : String) : FsEntity → Bool
  | .path p => if isPfxPatt patt then strHasPfx p (replaceDotSlash patt) else patt == p
  | .pathPattern _ => false

/-- Modelled from the spec: PathPattern.Test on command names, with the same
semantics as on filesystem entities. -/
def pathPatternTestCmd (patt : String) : CommandName → Bool
  | .path p => if isPfxPatt patt then strHasPfx p (replaceDotSlash patt) else patt == p
  | .pathPattern _ => false
  | .str _ => false

/-- Modelled from the spec: URLPattern.Test is not under src/. A prefix URL
pattern matches the URLs starting with its prefix (the prefix is the pattern
with the trailing "/..." replaced by "/", as in the source's own prefix
computation); other patterns match the equal literal URL; non-URL values do
not match. -/
def urlPatternTest (patt : String) : HttpEntity → Bool
  | .url u => if isPfxPatt patt then strHasPfx u (replaceDotSlash patt) else patt == u
  | _ => false

/-- Modelled from the spec: HostPattern.Test is not under src/. The portion of
the pattern before the first wildcard star must be a prefix of the host and
the portion after the last star must be a suffix; non-host values do not
match. -/
def hostPatternMatches (patt h : String) : Bool :=
  let pre := patt.data.takeWhile (fun c => c ≠ '*')
  let suf := (patt.data.reverse.takeWhile (fun c => c ≠ '*')).reverse
  pre.isPrefixOf h.data && suf.isSuffixOf h.data

/-- Modelled from the spec: HostPattern.includesPattern is not under src/; the
spec only guarantees that identical patterns include each other. -/
def hostPatternIncludesPatt (p q : String) : Bool := p == q

/-- Modelled from the spec: HostPattern.Test on an HTTP entity. -/
def hostPatternTestHttp (patt : String) : HttpEntity → Bool
  | .host h => hostPatternMatches patt h
  | _ => false

/-! URL parsing helpers.  These model the parts of Go net/url used by
HttpPermission.Includes, on the simple scheme://host[/path][?query] URLs that
permission subjects are.  url.Parse keeps the input verbatim in its
components, RawQuery is the portion after the first question mark, and
printing the parsed URL with RawQuery emptied and ForceQuery false yields the
input with its query (and the question mark) removed. -/

/-- Characters after the first question mark (Go URL.RawQuery). -/
def rawQueryChars : List Char → List Char
  | [] => []
  | '?' :: rest => rest
  | _ :: rest => rawQueryChars rest

def goRawQuery (s : String) : String := ⟨rawQueryChars s.data⟩

/-- The URL with its query part (and the question mark) removed: what Go
prints for the parsed URL after clearing RawQuery and ForceQuery. -/
def goStripQuery (s : String) : String := ⟨s.data.takeWhile (fun c => c ≠ '?')⟩

/-- Scheme of a parsed URL or Host value: the characters before the colon. -/
def urlSchemeStr (s : String) : String := ⟨s.data.takeWhile (fun c => c ≠ ':')⟩

/-- Host component of a parsed URL: the characters after "://" and before the
first slash or question mark. -/
def urlHostStr (s : String) : String :=
  ⟨((s.data.dropWhile (fun c => c ≠ ':')).drop 3).takeWhile (fun c => c ≠ '/' && c ≠ '?')⟩

/-- Modelled core Host.WithoutScheme: the characters after "://". -/
def hostWithoutScheme (s : String) : String := ⟨(s.data.dropWhile (fun c => c ≠ ':')).drop 3⟩

/-- Port of the URL case of HttpPermission.Includes: when the receiver URL has
no query, both URLs are compared with their queries stripped (the argument
being the empty string when the other subject is not a URL, which is the Go
zero value of the failed type assertion); otherwise the other subject must be
the identical URL. -/
def httpUrlIncludes (e : String) (other : HttpEntity) : Bool :=
  let otherURL : String := match other with
    | .url u => u
    | _ => ""
  let ok : Bool := match other with
    | .url _ => true
    | _ => false
  if goRawQuery e == "" then goStripQuery e == goStripQuery otherURL
  else ok && e == otherURL

/-- Port of the entity dispatch of HttpPermission.Includes.  In the URLPattern
case the source tests, for two prefix patterns, that the receiver pattern
starts with the argument pattern (both with "/..." replaced by "/") before
falling back to URLPattern.Test. -/
def httpEntityIncludes : HttpEntity → HttpEntity → Bool
  | .url e, other => httpUrlIncludes e other
  | .urlPattern e, other =>
    let otherPatt : String := match other with
      | .urlPattern p => p
      | _ => ""
    let ok : Bool := match other with
      | .urlPattern _ => true
      | _ => false
    if ok && isPfxPatt e && isPfxPatt otherPatt
        && strHasPfx (replaceDotSlash e) (replaceDotSlash otherPatt) then
      true
    else urlPatternTest e other
  | .host e, other =>
    match other with
    | .url u => urlSchemeStr u == urlSchemeStr e && urlHostStr u == hostWithoutScheme e
    | .urlPattern u => urlSchemeStr u == urlSchemeStr e && urlHostStr u == hostWithoutScheme e
    | .host h2 => e == h2
    | .hostPattern _ => false
  | .hostPattern e, other => hostPatternTestHttp e other

/-- Port of the domain dispatch shared by DNSPermission.Includes and
RawTcpPermission.Includes. -/
def domainIncludes : DomainEntity → DomainEntity → Bool
  | .hostPattern p, .host h => hostPatternMatches p h
  | .hostPattern p, .hostPattern q => hostPatternIncludesPatt p q
  | .host h, .host h2 => h == h2
  | .host _, .hostPattern _ => false

/-- Port of the command-name dispatch of CommandPermission.Includes. -/
def commandNameIncludes : CommandName → CommandName → Bool
  | .str s, .str s2 => s == s2
  | .str _, _ => false
  | .path p, .path p2 => p == p2
  | .path _, _ => false
  | .pathPattern patt, .path p => pathPatternTestCmd patt (.path p)
  | .pathPattern patt, .pathPattern q => pathPatternTestCmd patt (.pathPattern q)
  | .pathPattern _, .str _ => false

/-- The permission variants of the core (the ValueVisibilityPermission, whose
subject is an arbitrary value pattern, is outside this embedding). -/
inductive Permission
  | globalVar (kind : PermissionKind) (name : String)
  | envVar (kind : PermissionKind) (name : String)
  | routine (kind : PermissionKind)
  | filesystem (kind : PermissionKind) (entity : FsEntity)
  | http (kind : PermissionKind) (entity : HttpEntity)
  | websocket (kind : PermissionKind) (endpoint : String)
  | dns (kind : PermissionKind) (domain : DomainEntity)
  | rawTcp (kind : PermissionKind) (domain : DomainEntity)
  | command (name : CommandName) (subcommands : List String)
  | systemGraph (kind : PermissionKind)
deriving DecidableEq

/-- Port of the Includes methods of the permission variants: the receiver's
kind must include the argument's kind and the receiver's subject must cover
the argument's subject; permissions of different variants never include each
other. -/
def Permission.Includes : Permission → Permission → Bool
  | .globalVar k n, .globalVar k2 n2 => k.Includes k2 && (n == "*" || n == n2)
  | .envVar k n, .envVar k2 n2 => k.Includes k2 && (n == "*" || n == n2)
  | .routine k, .routine k2 => k.Includes k2
  | .filesystem k e, .filesystem k2 e2 =>
    k.Includes k2 &&
      (match e with
       | .path p =>
         match e2 with
         | .path p2 => p == p2
         | .pathPattern _ => false
       | .pathPattern patt => pathPatternTestFs patt e2)
  | .http k e, .http k2 e2 => k.Includes k2 && httpEntityIncludes e e2
  | .websocket k ep, .websocket k2 ep2 =>
    k.Includes k2 && (k == PermissionKind.provide || ep == ep2)
  | .dns k d, .dns k2 d2 => k.Includes k2 && domainIncludes d d2
  | .rawTcp k d, .rawTcp k2 d2 => k.Includes k2 && domainIncludes d d2
  | .command n sub, .command n2 sub2 =>
    PermissionKind.Includes .use .use && commandNameIncludes n n2
      && (sub.length == sub2.length && sub == sub2)
  | .systemGraph k, .systemGraph k2 => k.Includes k2
  | _, _ => false

/-- A single-quote character, written by code point to build the Go format
strings that quote names. -/
def squote : String := String.singleton (Char.ofNat 39)

def fsEntityString : FsEntity → String
  | .path p => p
  | .pathPattern patt => patt

def httpEntityString : HttpEntity → String
  | .url u => u
  | .urlPattern patt => patt
  | .host h => h
  | .hostPattern patt => patt

def domainEntityString : DomainEntity → String
  | .host h => h
  | .hostPattern patt => patt

def commandNameString : CommandName → String
  | .str s => s
  | .path p => p
  | .pathPattern patt => patt

/-- Port of the subcommand-chain part of CommandPermission.String. -/
def subcommandChainString : List String → String
  | [] => " <no subcommand>"
  | names => String.join (names.map (fun n => " " ++ n))

/-- Port of the String methods of the permission variants (Go fmt prints the
string-based Path, URL and Host types verbatim with the percent-s verb). -/
def Permission.string : Permission → String
  | .globalVar k n => "[" ++ k.toName ++ " global(s) " ++ squote ++ n ++ squote ++ "]"
  | .envVar k n => "[" ++ k.toName ++ " env " ++ squote ++ n ++ squote ++ "]"
  | .routine k => "[" ++ k.toName ++ " routine]"
  | .filesystem k e => "[" ++ k.toName ++ " path(s) " ++ fsEntityString e ++ "]"
  | .http k e => "[" ++ k.toName ++ " " ++ httpEntityString e ++ "]"
  | .websocket k ep => "[websocket " ++ k.toName ++ " " ++ ep ++ "]"
  | .dns k d => "[dns " ++ k.toName ++ " " ++ domainEntityString d ++ "]"
  | .rawTcp k d => "[tcp " ++ k.toName ++ " " ++ domainEntityString d ++ "]"
  | .command n sub => "[exec command:" ++ commandNameString n ++ subcommandChainString sub ++ "]"
  | .systemGraph k => "[" ++ k.toName ++ " system graph]"

structure NotAllowedError where
  permission : Permission
  message : String
deriving DecidableEq

/-- Port of NewNotAllowedError: the error carries the permission and a message
formatted from the permission's String representation. -/
def NewNotAllowedError (perm : Permission) : NotAllowedError :=
  { permission := perm
    message := "not allowed, missing permission: " ++ perm.string }

/-- A well-formed scheme://host URL or host string: nonempty scheme without
colon, slash or question mark, then "://", then a nonempty host without
colon, slash or question mark, then either nothing or a path or query part
introduced by a slash or question mark. -/
def WellFormedURL (s : String) : Prop :=
  ∃ sch host rest,
    s.data = sch ++ ':' :: '/' :: '/' :: (host ++ rest)
    ∧ sch ≠ []
    ∧ (∀ c ∈ sch, c ≠ ':' ∧ c ≠ '/' ∧ c ≠ '?')
    ∧ host ≠ []
    ∧ (∀ c ∈ host, c ≠ ':' ∧ c ≠ '/' ∧ c ≠ '?')
    ∧ (rest = [] ∨ (∃ r2, rest = '/' :: r2) ∨ (∃ r2, rest = '?' :: r2))

/-- A permission whose subject is a literal (not a pattern); URL subjects are
additionally required to be well-formed scheme://host URLs. -/
def LiteralWF : Permission → Prop
  | .globalVar _ _ => True
  | .envVar _ _ => True
  | .routine _ => True
  | .filesystem _ e =>
    match e with
    | .path _ => True
    | .pathPattern _ => False
  | .http _ e =>
    match e with
    | .url u => WellFormedURL u
    | .host _ => True
    | .urlPattern _ => False
    | .hostPattern _ => False
  | .websocket _ _ => True
  | .dns _ d =>
    match d with
    | .host _ => True
    | .hostPattern _ => False
  | .rawTcp _ d =>
    match d with
    | .host _ => True
    | .hostPattern _ => False
  | .command n _ =>
    match n with
    | .str _ => True
    | .path _ => True
    | .pathPattern _ => False
  | .systemGraph _ => True

/-! ## Meta filesystem (internal/globals/fs_ns/meta_filesystem.go) -/

namespace MetaFs

/-- File mode: the directory and symlink bits plus the permission bits. -/
structure FileMode where
  isDir : Bool
  isSymlink : Bool
  permBits : Nat
deriving DecidableEq

/-- A metadata record as serialized in the key-value store: the three required
properties, plus the underlying-file property for regular files, the children
property for directories, and the optional symlink target. -/
structure MetaRec where
  fileMode : FileMode
  creationTime : Nat
  modificationTime : Nat
  underlyingFile : Option String
  children : Option (List String)
  symlinkTarget : Option String
deriving DecidableEq

/-- The metadata key-value store (filekv.SingleFileKV) as an association list
from keys to records; iteration (ForEach) follows the list order. -/
abbrev Store := List (String × MetaRec)

def Store.get : Store → String → Option MetaRec
  | [], _ => none
  | (k, v) :: rest, key => if k = key then some v else Store.get rest key

def Store.set : Store → String → MetaRec → Store
  | [], key, v => [(key, v)]
  | (k, v2) :: rest, key, v =>
    if k = key then (k, v) :: rest else (k, v2) :: Store.set rest key v

def Store.del : Store → String → Store
  | [], _ => []
  | (k, v) :: rest, key => if k = key then rest else (k, v) :: Store.del rest key

/-- Errors and panics of the meta filesystem operations.  Go panics (nil
pointer dereference, ErrUnreachable) are modelled as explicit outcomes. -/
inductive FsErr
  | notAbsolute
  | errNotExist
  | errExist
  | symlinksNotSupported
  | cannotOpenDir
  | parentNotExist
  | failedToCreateDir
  | failedToRemoveChild
  | panicUnreachable
  | panicNilDeref
  | outOfFuel
deriving DecidableEq

/-- The configured base directory of the meta filesystem on the underlying
filesystem. -/
def metaFsDir : String := "/metafs"

def isAbsPath (p : String) : Bool :=
  match p.data with
  | '/' :: _ => true
  | _ => false

/-- Modelled from the spec: normalizeAsAbsolute is not under src/; meta
filesystem paths are absolute (all paths in the claims already are), so a
relative path is rooted at the filesystem root. -/
def normalizeAsAbsolute (p : String) : String := if isAbsPath p then p else "/" ++ p

/-- Go filepath.Dir on clean paths: everything before the last slash, with "/"
for a top-level entry and "." for a path without slash. -/
def parentChars (l : List Char) : List Char :=
  (l.reverse.dropWhile (fun c => c ≠ '/')).reverse

def goDir (p : String) : String :=
  if parentChars p.data = [] then "."
  else if parentChars p.data = ['/'] then "/"
  else ⟨(parentChars p.data).dropLast⟩

/-- Go filepath.Base on clean paths: the characters after the last slash. -/
def goBase (p : String) : String := ⟨(p.data.reverse.takeWhile (fun c => c ≠ '/')).reverse⟩

/-- Go filepath.Join of two clean components. -/
def goJoin2 (a b : String) : String := a ++ "/" ++ b

/-- Go filepath.Rel(base, p) in the only shape the source uses: p is below
base, so the relative path is p with the prefix base plus slash removed. -/
def goRel (base p : String) : String := strTrimPfx p (base ++ "/")

/-- Modelled core.DirPathFrom: a directory path carries a trailing slash. -/
def DirPathFrom (p : String) : String := if strHasSfx p "/" then p else p ++ "/"

/-- Port of getKvKeyFromPath: the "/files" prefix plus the path, without the
trailing slash of directory paths. -/
def getKvKeyFromPath (pth : String) : String :=
  let key := "/files" ++ pth
  if key.data.getLast? = some '/' then ⟨key.data.dropLast⟩ else key

/-- In-memory file metadata (metaFsFileMetadata).  The children field is the
Go slice which is nil (empty) unless someone assigns it. -/
structure FileMetadata where
  path : String
  concreteFile : Option String
  mode : FileMode
  creationTime : Nat
  modificationTime : Nat
  symlinkTarget : Option String
  children : List String
deriving DecidableEq

/-- Port of getFileMetadata.  The three required properties are structural
fields of MetaRec, so the required-property check always passes.  Note that
the source never reads the children property of the record, so the children
field of the returned metadata keeps the Go zero value (the empty list). -/
def getFileMetadata (st : Store) (pth : String) : Except FsErr (Option FileMetadata) :=
  if !isAbsPath pth then .error .notAbsolute
  else
    match st.get (getKvKeyFromPath pth) with
    | none => .ok none
    | some record =>
      .ok (some
        { path := pth
          concreteFile := record.underlyingFile.map (fun base => goJoin2 metaFsDir base)
          mode := record.fileMode
          creationTime := record.creationTime
          modificationTime := record.modificationTime
          symlinkTarget := record.symlinkTarget
          children := [] })

/-- Port of setFileMetadata: directories serialize their children list, other
files serialize the basename of their concrete file (whose nil dereference is
a panic). -/
def setFileMetadata (st : Store) (md : FileMetadata) : Except FsErr Store :=
  if !isAbsPath md.path then .error .notAbsolute
  else
    let base : MetaRec :=
      { fileMode := md.mode
        creationTime := md.creationTime
        modificationTime := md.modificationTime
        underlyingFile := none
        children := none
        symlinkTarget := none }
    if md.mode.isDir then
      .ok (st.set (getKvKeyFromPath md.path) { base with children := some md.children })
    else
      match md.concreteFile with
      | none => .error .panicNilDeref
      | some cf =>
        .ok (st.set (getKvKeyFromPath md.path) { base with underlyingFile := some (goBase cf) })

/-- Port of deleteFileMetadata. -/
def deleteFileMetadata (st : Store) (pth : String) : Store :=
  st.del (getKvKeyFromPath pth)

/-- Flags of OpenFile; isCreate and isExclusive (not under src/) test the
O_CREATE and O_EXCL bits. -/
structure OpenFlags where
  createFlag : Bool
  exclFlag : Bool
deriving DecidableEq

def isCreate (f : OpenFlags) : Bool := f.createFlag

def isExclusive (f : OpenFlags) : Bool := f.exclFlag

def isSymlink (m : FileMode) : Bool := m.isSymlink

/-- Port of MkdirAllNoLock on its (normalized) absolute argument.  The source
normalizes the path on entry; normalization is the identity on the absolute
paths this definition receives, and the recursion passes the parent of an
absolute path, which is again absolute.  The creation time stands for
time.Now().  The recursion of the source is on the parent path, whose length
strictly decreases; it is made structural here through a fuel argument that
exceeds the path length, so the out-of-fuel branch is unreachable. -/
def mkdirAllFuel : Nat → Store → String → FileMode → Nat → Except FsErr Store
  | 0, _, _, _, _ => .error .outOfFuel
  | fuel + 1, st, path, perm, now =>
    if path = "/" then .ok st
    else
      let permDir : FileMode := { perm with isDir := true }
      match getFileMetadata st path with
      | .error e => .error e
      | .ok (some _) => .ok st
      | .ok none =>
        let pth := DirPathFrom path
        let step : Except FsErr Store :=
          if goDir path ≠ "/" ∧ goDir path ≠ "." then
            mkdirAllFuel fuel st (goDir path) permDir now
          else .ok st
        match step with
        | .error e => .error e
        | .ok st2 =>
          setFileMetadata st2
            { path := pth
              concreteFile := none
              mode := permDir
              creationTime := now
              modificationTime := now
              symlinkTarget := none
              children := [] }

/-- Port of MkdirAllNoLock: normalize, then create the chain of missing
directories. -/
def MkdirAllNoLock (st : Store) (path : String) (perm : FileMode) (now : Nat) :
    Except FsErr Store :=
  if path = "/" then .ok st
  else
    mkdirAllFuel ((normalizeAsAbsolute path).data.length + 1) st (normalizeAsAbsolute path)
      perm now

/-- Port of MkdirAll (takes the filesystem lock, then MkdirAllNoLock). -/
def MkdirAll (st : Store) (path : String) (perm : FileMode) (now : Nat) :
    Except FsErr Store :=
  MkdirAllNoLock st path perm now

/-- A meta filesystem file handle as returned by OpenFile. -/
structure MetaFile where
  path : String
  originalPath : String
  metadata : FileMetadata
  underlying : String
deriving DecidableEq

/-- Common tail of OpenFile: both the create branch and the existing branch
open the underlying concrete file (dereferencing the concreteFile pointer,
which is nil for directories: a panic) and only then reject directories.
The underlying open of an existing content file is assumed to succeed. -/
def openFileTail (st : Store) (pth originalPath : String) (md : FileMetadata) :
    Except FsErr (Store × MetaFile) :=
  match md.concreteFile with
  | none => .error .panicNilDeref
  | some cf =>
    if md.mode.isDir then .error .cannotOpenDir
    else
      .ok (st, { path := pth, originalPath := originalPath, metadata := md, underlying := cf })

/-- Port of OpenFile.  The now argument stands for time.Now() and the ulid
argument for ulid.Make().String(). -/
def OpenFile (st : Store) (filename : String) (flag : OpenFlags) (perm : FileMode)
    (now : Nat) (ulid : String) : Except FsErr (Store × MetaFile) :=
  let originalPath := filename
  let pth := normalizeAsAbsolute filename
  match getFileMetadata st pth with
  | .error e => .error e
  | .ok none =>
    if !isCreate flag then .error .errNotExist
    else
      let dir0 := goDir originalPath
      let step1 : Except FsErr Store :=
        if dir0 ≠ "/" then
          match MkdirAllNoLock st dir0 { isDir := false, isSymlink := false, permBits := 0o700 } now with
          | .error _ => .error .failedToCreateDir
          | .ok st2 => .ok st2
        else .ok st
      match step1 with
      | .error e => .error e
      | .ok st2 =>
        let dirPath := goDir pth
        let step2 : Except FsErr Store :=
          if dirPath ≠ "/" then
            match getFileMetadata st2 dirPath with
            | .error e => .error e
            | .ok none => .error .parentNotExist
            | .ok (some dirMetadata) =>
              setFileMetadata st2 { dirMetadata with children := dirMetadata.children ++ [pth] }
          else .ok st2
        match step2 with
        | .error e => .error e
        | .ok st3 =>
          let newMd : FileMetadata :=
            { path := pth
              concreteFile := some (goJoin2 metaFsDir ulid)
              mode := perm
              creationTime := now
              modificationTime := now
              symlinkTarget := none
              children := [] }
          match setFileMetadata st3 newMd with
          | .error e => .error e
          | .ok st4 => openFileTail st4 pth originalPath newMd
  | .ok (some metadata) =>
    if isSymlink metadata.mode then .error .symlinksNotSupported
    else if isExclusive flag then .error .errExist
    else openFileTail st pth originalPath metadata

/-- Port of Create (OpenFile with create and truncate flags). -/
def Create (st : Store) (filename : String) (now : Nat) (ulid : String) :
    Except FsErr (Store × MetaFile) :=
  OpenFile st filename { createFlag := true, exclFlag := false }
    { isDir := false, isSymlink := false, permBits := 0o666 } now ulid

/-- Port of statNoLock, returning the stored metadata in place of the derived
core.FileInfo (stat of the underlying content file is assumed to succeed). -/
def statNoLock (st : Store) (filename : String) : Except FsErr FileMetadata :=
  let filename2 := normalizeAsAbsolute filename
  match getFileMetadata st filename2 with
  | .error e => .error e
  | .ok none => .error .errNotExist
  | .ok (some md) => .ok md

/-- Port of Stat (takes the read lock, then statNoLock). -/
def Stat (st : Store) (filename : String) : Except FsErr FileMetadata :=
  statNoLock st filename

/-- Port of the move-list construction of Rename: a fold over the store in
iteration order, mirroring the ForEach callback.  The callback trims the
prefix "/files/" (with trailing slash) from the key before testing whether
the result is rooted at the source path. -/
def renameMoveList (st : Store) (fromN toN : String) : List (String × String) :=
  st.foldl
    (fun acc kv =>
      let key := kv.1
      let path := strTrimPfx key ("/files" ++ "/")
      if path == key then acc
      else if path == fromN || !strHasPfx path fromN then acc
      else
        let rel := goRel fromN path
        let pathTo := goJoin2 toN rel
        acc ++ [(path, pathTo)])
    [(fromN, toN)]

/-- Port of the per-entry loop of Rename inside the key-value transaction:
fetch the metadata at the old path, rewrite it under the new path, delete the
old key.  The context is never cancelled in the scenarios considered, so the
cooperative cancellation check (every ten iterations) is a no-op. -/
def renameLoop (st : Store) : List (String × String) → Except FsErr Store
  | [] => .ok st
  | (f, t) :: rest =>
    match getFileMetadata st f with
    | .error e => .error e
    | .ok none => .error .panicUnreachable
    | .ok (some md) =>
      match setFileMetadata st { md with path := t } with
      | .error e => .error e
      | .ok st2 => renameLoop (deleteFileMetadata st2 f) rest

/-- Port of Rename. -/
def Rename (st : Store) (fromArg toArg : String) : Except FsErr Store :=
  let fromN := normalizeAsAbsolute fromArg
  let toN := normalizeAsAbsolute toArg
  match getFileMetadata st fromN with
  | .error e => .error e
  | .ok none => .error .errNotExist
  | .ok (some _) =>
    let move := renameMoveList st fromN toN
    let fromDir := goDir fromN
    let step1 : Except FsErr Store :=
      if fromDir ≠ "/" ∧ fromDir ≠ "." then
        let fromDirPath := DirPathFrom fromDir
        match getFileMetadata st fromDirPath with
        | .error e => .error e
        | .ok none => .error .panicUnreachable
        | .ok (some fromDirMetadata) =>
          if fromN ∈ fromDirMetadata.children then
            setFileMetadata st
              { fromDirMetadata with children := removeFirstOcc fromDirMetadata.children fromN }
          else .error .failedToRemoveChild
      else .ok st
    match step1 with
    | .error e => .error e
    | .ok st1 => renameLoop st1 move

/-- Port of the descendant-removal loop of Remove: a work stack popped from
the end.  The source pops the current path but then deletes the metadata of
metadata.path (the root of the removal) instead of the current path; this
slip is preserved.  The fuel bounds the walk; it is never exhausted because
the children lists read back from the store are always empty (getFileMetadata
does not read the children property). -/
def removeLoop (rootPath : String) : Nat → Store → List String → Except FsErr Store
  | 0, _, _ => .error .outOfFuel
  | _ + 1, st, [] => .ok st
  | fuel + 1, st, x :: xs =>
    let current := (x :: xs).getLast (by simp)
    let queue2 := (x :: xs).dropLast
    match getFileMetadata st current with
    | .error e => .error e
    | .ok none => removeLoop rootPath fuel st queue2
    | .ok (some currentMetadata) =>
      let queue3 :=
        if currentMetadata.mode.isDir then queue2 ++ currentMetadata.children else queue2
      removeLoop rootPath fuel (deleteFileMetadata st rootPath) queue3

/-- Port of Remove.  The parent-update block of the source fetches the
metadata of the removed path itself where the parent directory's metadata is
meant, and its found flag is never set to true, so reaching the end of the
children scan panics with ErrUnreachable; both slips are preserved. -/
def Remove (st : Store) (filenameArg : String) : Except FsErr Store :=
  let filename := normalizeAsAbsolute filenameArg
  let pth := filename
  match getFileMetadata st pth with
  | .error e => .error e
  | .ok none => .error .errNotExist
  | .ok (some metadata) =>
    let dir := goDir filename
    let step1 : Except FsErr Store :=
      if dir ≠ "/" ∧ dir ≠ "." then
        match getFileMetadata st pth with
        | .error e => .error e
        | .ok none => .error .panicUnreachable
        | .ok (some parentMetadata) =>
          let children2 := removeFirstOcc parentMetadata.children pth
          let found := false
          if found then setFileMetadata st { parentMetadata with children := children2 }
          else .error .panicUnreachable
      else .ok st
    match step1 with
    | .error e => .error e
    | .ok st1 =>
      let st2 := deleteFileMetadata st1 metadata.path
      if !metadata.mode.isDir then .ok st2
      else
        removeLoop metadata.path (st2.length + metadata.children.length + 1) st2
          metadata.children

end MetaFs

/-! ## Shared Set container (internal/globals/containers/setcoll/set.go)

The embedding covers Sets with the default representation-uniqueness
(common.UniqueRepr): elements are modelled by their unique representation
key (the JSON serialization produced by common.GetUniqueKey is injective on
representable values, and GetUniqueKey is not under src/), so getUniqueKey
is the identity and the UniquePropertyValue branches of the source are
dead.  The element-pattern test of the default configuration accepts every
serializable value.  The smart lock, the WaitIfOtherTransaction barrier (a
blocker of concurrent transactions, no-op in the single-transaction
scenarios of the claims) and persistence (storage is nil for non-persisted
Sets) have no effect on the element state and are not represented. -/

namespace SetColl

abbrev Elem := String

structure Tx where
  txid : Nat
  readonly : Bool
deriving DecidableEq

structure Ctx where
  tx : Option Tx
deriving DecidableEq

structure SetState where
  elementByKey : List (String × Elem)
  pendingInclusions : List (String × Elem)
  pendingRemovals : List String
  shared : Bool
  transactionsWithSetEndCallback : List Nat
deriving DecidableEq

/-- Modelled from the spec: with representation uniqueness the unique key of
an element is its serialization, injective on elements; elements are
identified with their keys. -/
def getUniqueKey (e : Elem) : String := e

/-- Port of Set.getElem: a key in the pending removals is absent; otherwise
the committed elements are searched, then the pending inclusions.  The search
does not depend on the caller's transaction. -/
def getElem (s : SetState) (key : String) : Option Elem :=
  if key ∈ s.pendingRemovals then none
  else
    match assocFind s.elementByKey key with
    | some e => some e
    | none => assocFind s.pendingInclusions key

/-- Port of Set.hasNoLock under representation uniqueness (the Same test is
skipped for UniqueRepr). -/
def hasNoLock (s : SetState) (e : Elem) : Bool := (getElem s (getUniqueKey e)).isSome

/-- Port of Set.Has.  The lock and the transaction barrier do not alter the
state, so Has is hasNoLock. -/
def Has (_ctx : Ctx) (s : SetState) (e : Elem) : Bool := hasNoLock s e

/-- Panics of the Set operations, modelled as explicit outcomes. -/
inductive SetPanic
  | effectsNotAllowedInReadonlyTx
  | valueWithSameKeyAlreadyPresent
deriving DecidableEq

/-- Outcome of a state-changing Set operation: the state after the operation
and the panic that interrupted it, if any. -/
structure SetOutcome where
  panic : Option SetPanic
  state : SetState
deriving DecidableEq

def removePendingRemoval (s : SetState) (key : String) : SetState :=
  { s with pendingRemovals := removeFirstOcc s.pendingRemovals key }

def addPendingInclusion (s : SetState) (key : String) (e : Elem) : SetState :=
  if (assocFind s.pendingInclusions key).isSome then s
  else { s with pendingInclusions := s.pendingInclusions ++ [(key, e)] }

/-- Port of Set.addToSharedSetNoPersist.  Without a transaction (or ignoring
it) the element is added directly, panicking when the key is already bound;
under a transaction a conflicting committed binding panics, then the key is
taken out of the pending removals and appended to the pending inclusions if
not already there. -/
def addToSharedSetNoPersist (ctx : Ctx) (s : SetState) (e : Elem) (ignoreTx : Bool) :
    SetOutcome :=
  let key := getUniqueKey e
  if ctx.tx.isNone || ignoreTx then
    match assocFind s.elementByKey key with
    | some _ => { panic := some .valueWithSameKeyAlreadyPresent, state := s }
    | none =>
      { panic := none, state := { s with elementByKey := s.elementByKey ++ [(key, e)] } }
  else
    match assocFind s.elementByKey key with
    | some curr =>
      if e ≠ curr then { panic := some .valueWithSameKeyAlreadyPresent, state := s }
      else { panic := none, state := addPendingInclusion (removePendingRemoval s key) key e }
    | none =>
      { panic := none, state := addPendingInclusion (removePendingRemoval s key) key e }

/-- Port of Set.Add.  For a non-shared Set transactions are ignored and the
element is inserted if absent.  For a shared Set a read-only transaction is
rejected before any change, then the element is added without persisting, and
a transaction-end callback is registered once per transaction. -/
def Add (ctx : Ctx) (s : SetState) (e : Elem) : SetOutcome :=
  if !s.shared then
    let key := getUniqueKey e
    match assocFind s.elementByKey key with
    | some _ => { panic := none, state := s }
    | none =>
      { panic := none, state := { s with elementByKey := s.elementByKey ++ [(key, e)] } }
  else
    if ctx.tx.any (fun t => t.readonly) then
      { panic := some .effectsNotAllowedInReadonlyTx, state := s }
    else
      let out := addToSharedSetNoPersist ctx s e false
      match out.panic with
      | some p => { panic := some p, state := out.state }
      | none =>
        match ctx.tx with
        | none => out
        | some tx =>
          if tx.txid ∈ out.state.transactionsWithSetEndCallback then out
          else
            { out with
              state :=
                { out.state with
                  transactionsWithSetEndCallback :=
                    out.state.transactionsWithSetEndCallback ++ [tx.txid] } }

/-- Port of Set.Remove.  For a non-shared Set the binding is deleted if
present.  For a shared Set a read-only transaction is rejected before any
change; without a transaction the binding is deleted; under a transaction the
key is appended to the pending removals if not already there and an end
callback is registered once. -/
def Remove (ctx : Ctx) (s : SetState) (e : Elem) : SetOutcome :=
  if !s.shared then
    let key := getUniqueKey e
    match assocFind s.elementByKey key with
    | none => { panic := none, state := s }
    | some _ => { panic := none, state := { s with elementByKey := assocErase s.elementByKey key } }
  else
    if ctx.tx.any (fun t => t.readonly) then
      { panic := some .effectsNotAllowedInReadonlyTx, state := s }
    else
      let key := getUniqueKey e
      match ctx.tx with
      | none =>
        match assocFind s.elementByKey key with
        | none => { panic := none, state := s }
        | some _ =>
          { panic := none, state := { s with elementByKey := assocErase s.elementByKey key } }
      | some tx =>
        let s1 :=
          if key ∈ s.pendingRemovals then s
          else { s with pendingRemovals := s.pendingRemovals ++ [key] }
        let s2 :=
          if tx.txid ∈ s1.transactionsWithSetEndCallback then s1
          else
            { s1 with
              transactionsWithSetEndCallback := s1.transactionsWithSetEndCallback ++ [tx.txid] }
        { panic := none, state := s2 }

/-- Port of the callback built by Set.makeTransactionEndCallback: on success
the pending inclusions are written into the element map and the pending
removals deleted from it; in every case both pending lists are cleared. -/
def applyTransactionEndCallback (s : SetState) (success : Bool) : SetState :=
  let s2 :=
    if success then
      let afterIncl :=
        s.pendingInclusions.foldl (fun m kv => assocSet m kv.1 kv.2) s.elementByKey
      let afterRem := s.pendingRemovals.foldl (fun m k => assocErase m k) afterIncl
      { s with elementByKey := afterRem }
    else s
  { s2 with pendingInclusions := [], pendingRemovals := [] }

/-- Modelled from the spec: Transaction.Commit is not under src/; committing
fires each callback registered with OnEnd exactly once with success true.
For a Set the registered callback is the one built by
makeTransactionEndCallback. -/
def Commit (tx : Tx) (s : SetState) : SetState :=
  if tx.txid ∈ s.transactionsWithSetEndCallback then applyTransactionEndCallback s true
  else s

end SetColl

/-! ## Mutation re-parenting (modelled from the spec)

The mutation bus implementation (core/mutation.go, core/list.go) is not under
src/; only its test is.  Modelled from the spec: a watched container watching
at depth Intermediate or Deep keeps a mutation-callback registration on each
of its current children; replacing a child removes the registration of the
replaced child and registers the new one, so later mutations of the replaced
child no longer reach the container's watchers. -/

namespace MutationModel

def removeAllNat (l : List Nat) (x : Nat) : List Nat := l.filter (fun y => y ≠ x)

/-- A container watched at depth Intermediate or deeper: its element ids and
the ids of the children that currently hold a mutation-callback registration
feeding the container's watchers. -/
structure WatchedList where
  elems : List Nat
  watchedChildren : List Nat
deriving DecidableEq

/-- Watching a list registers a callback on every current element. -/
def watchList (elems : List Nat) : WatchedList :=
  { elems := elems, watchedChildren := elems }

/-- Replacing the element at an index (a set-at-index mutation, or the
single-element case of a set-slice mutation): the replaced child's
registration is dropped, the new child is registered. -/
def setElemAt (w : WatchedList) (i : Nat) (newId : Nat) : WatchedList :=
  match w.elems.get? i with
  | none => w
  | some old =>
    { elems := w.elems.set i newId
      watchedChildren := removeAllNat w.watchedChildren old ++ [newId] }

/-- Whether a mutation of the child with the given id reaches the container's
watchers: only currently registered children propagate. -/
def childMutationFires (w : WatchedList) (id : Nat) : Bool := id ∈ w.watchedChildren

end MutationModel

/-! ## CPU-time accounting (modelled from the spec)

The CPU-time limit decrementer (core/limit.go, core/context.go) is not under
src/; only its integration test is.  Modelled from the spec: the total
CPU-time limit is decremented by elapsed wall time only while the context is
active; Pause and Resume freeze the decrementer while the context sleeps,
waits for a lock held by a foreign context, or is paused after a yield.  The
context is cancelled once the spent CPU time reaches the limit. -/

namespace CpuTime

inductive Phase
  | active
  | sleeping
  | blockedOnForeignLock
  | pausedAfterYield
deriving DecidableEq

/-- A slice of wall-clock time (in nanoseconds) spent in one phase. -/
structure Slice where
  phase : Phase
  nanos : Nat
deriving DecidableEq

/-- The CPU time charged for a timeline: wall time of the active slices;
sleeping, lock-blocked and yield-paused slices contribute zero. -/
def cpuCharge (timeline : List Slice) : Nat :=
  timeline.foldl (fun acc s => match s.phase with | .active => acc + s.nanos | _ => acc) 0

/-- Whether the CPU-time total limit cancels the context after the timeline:
the charge has exhausted the budget. -/
def cancelledByCpuLimit (limitNanos : Nat) (timeline : List Slice) : Bool :=
  limitNanos ≤ cpuCharge timeline

end CpuTime

/-! ## Concrete scenario stores and states used by the claims -/

/-- The store after creating the file /a/b/c.txt on an empty meta filesystem
(Create also creates the parent directories /a and /a/b). -/
def createScenarioStore : MetaFs.Store :=
  match MetaFs.Create [] "/a/b/c.txt" 0 "f0" with
  | .ok (st, _) => st
  | .error _ => []

/-- The store after renaming /a to /a2 in the creation scenario. -/
def renameScenarioStore : MetaFs.Store :=
  match MetaFs.Rename createScenarioStore "/a" "/a2" with
  | .ok st => st
  | .error _ => []

/-- The store after removing /a in the creation scenario. -/
def removeScenarioStore : MetaFs.Store :=
  match MetaFs.Remove createScenarioStore "/a" with
  | .ok st => st
  | .error _ => []

/-- The store after creating the directory /d on an empty meta filesystem. -/
def dirScenarioStore : MetaFs.Store :=
  match MetaFs.MkdirAll [] "/d" { isDir := false, isSymlink := false, permBits := 448 } 0 with
  | .ok st => st
  | .error _ => []

def c4Tx : SetColl.Tx := { txid := 1, readonly := false }

def c4CtxWithTx : SetColl.Ctx := { tx := some c4Tx }

def c4CtxNoTx : SetColl.Ctx := { tx := none }

/-- A fresh shared Set with no elements and no pending changes. -/
def c4EmptySharedSet : SetColl.SetState :=
  { elementByKey := []
    pendingInclusions := []
    pendingRemovals := []
    shared := true
    transactionsWithSetEndCallback := [] }

/-- The shared Set after adding the element e under the transaction. -/
def c4AfterAdd : SetColl.SetState := (SetColl.Add c4CtxWithTx c4EmptySharedSet "e").state

/-- Decidable equality of Except values, used to evaluate the operations of
the embedding on concrete inputs. -/
instance {ε α : Type} [DecidableEq ε] [DecidableEq α] : DecidableEq (Except ε α) :=
  fun a b =>
    match a, b with
    | .error e1, .error e2 =>
      if h : e1 = e2 then isTrue (by rw [h])
      else isFalse (by intro hh; injection hh; contradiction)
    | .ok v1, .ok v2 =>
      if h : v1 = v2 then isTrue (by rw [h])
      else isFalse (by intro hh; injection hh; contradiction)
    | .error _, .ok _ => isFalse (by intro hh; cases hh)
    | .ok _, .error _ => isFalse (by intro hh; cases hh)

/-! ## Theorems -/

/-- Claim C1: after a successful Rename(from, to) of the meta filesystem, the
metadata of every stored path rooted at from is found under the rewritten
key and the old key is absent; concretely, after creating /a/b/c.txt and
renaming /a to /a2, Stat(/a2/b/c.txt) succeeds and Stat(/a/b/c.txt) reports
NotExist.  The evaluation of the source refutes this: the move list of the
rename contains only the root pair, because the prefix scan trims the key
prefix "/files/" (with the trailing slash), leaving descendant paths without
their leading slash so that none passes the HasPrefix test against from;
after the rename, Stat(/a2/b/c.txt) reports NotExist and Stat(/a/b/c.txt)
still succeeds. -/
theorem c1_rename_loses_descendants :
    (MetaFs.Create [] "/a/b/c.txt" 0 "f0").isOk = true
    ∧ (MetaFs.Rename createScenarioStore "/a" "/a2").isOk = true
    ∧ MetaFs.renameMoveList createScenarioStore "/a" "/a2" = [("/a", "/a2")]
    ∧ MetaFs.Stat renameScenarioStore "/a2/b/c.txt" = .error .errNotExist
    ∧ (MetaFs.Stat renameScenarioStore "/a/b/c.txt").isOk = true := by
  refine ⟨by decide, by decide, by decide, by decide, by decide⟩

/-- Claim C2: Remove(p) deletes the stored metadata of p and of every
descendant of p after removing p from its parent's children, and Remove of a
missing path reports NotExist.  The evaluation of the source refutes the
first part: removing a path whose parent is not the root panics with
ErrUnreachable (the parent-update block looks up the metadata of the removed
path itself and its found flag is never set), and removing the directory /a
leaves the metadata of its descendants in place (children lists are never
read back from the store), so Stat(/a/b) still succeeds.  The missing-path
part holds. -/
theorem c2_remove_panics_and_leaves_descendants :
    MetaFs.Remove createScenarioStore "/a/b/c.txt" = .error .panicUnreachable
    ∧ (MetaFs.Remove createScenarioStore "/a").isOk = true
    ∧ (MetaFs.Stat removeScenarioStore "/a/b").isOk = true
    ∧ MetaFs.Stat removeScenarioStore "/a" = .error .errNotExist
    ∧ MetaFs.Remove createScenarioStore "/x" = .error .errNotExist := by
  refine ⟨by decide, by decide, by decide, by decide, by decide⟩

/-- Claim C3: OpenFile reports NotExist for a missing path without the create
flag, reports an error (not a panic) for an existing directory, and reports
Exist for an exclusive create over an existing file.  The evaluation of the
source refutes the directory part: opening the existing directory /d
dereferences the nil concreteFile pointer (a panic) before the directory
check is reached; the other two parts hold. -/
theorem c3_open_directory_panics :
    MetaFs.OpenFile dirScenarioStore "/d" { createFlag := false, exclFlag := false }
        { isDir := false, isSymlink := false, permBits := 0 } 1 "f1"
      = .error .panicNilDeref
    ∧ MetaFs.OpenFile dirScenarioStore "/missing" { createFlag := false, exclFlag := false }
        { isDir := false, isSymlink := false, permBits := 0 } 1 "f1"
      = .error .errNotExist
    ∧ MetaFs.OpenFile createScenarioStore "/a/b/c.txt" { createFlag := true, exclFlag := true }
        { isDir := false, isSymlink := false, permBits := 438 } 1 "f2"
      = .error .errExist := by
  refine ⟨by decide, by decide, by decide⟩

/-- Claim C7: a failed check for the read permission on the path /home/
produces a NotAllowedError carrying exactly that permission, with exactly the
message "not allowed, missing permission: [read path(s) /home/]". -/
theorem c7_not_allowed_error_message :
    (NewNotAllowedError (.filesystem .read (.path "/home/"))).permission
      = Permission.filesystem .read (.path "/home/")
    ∧ (NewNotAllowedError (.filesystem .read (.path "/home/"))).message
      = "not allowed, missing permission: [read path(s) /home/]" := by
  exact ⟨rfl, by decide⟩

/-- Claim C6: on a shared Set, Add and Remove under a read-only transaction
panic with the effects-not-allowed-in-read-only-transaction error and leave
the elements, the pending inclusions and the pending removals unchanged. -/
theorem c6_readonly_tx_rejected (s : SetColl.SetState) (ctx : SetColl.Ctx)
    (tx : SetColl.Tx) (e : SetColl.Elem)
    (hShared : s.shared = true) (hTx : ctx.tx = some tx) (hRo : tx.readonly = true) :
    SetColl.Add ctx s e = { panic := some .effectsNotAllowedInReadonlyTx, state := s }
    ∧ SetColl.Remove ctx s e = { panic := some .effectsNotAllowedInReadonlyTx, state := s } := by
  have hAny : ctx.tx.any (fun t => t.readonly) = true := by
    rw [hTx]; simpa using hRo
  constructor
  · unfold SetColl.Add
    rw [hShared]
    simp [hAny]
  · unfold SetColl.Remove
    rw [hShared]
    simp [hAny]

/-- Witness for claim C6 at a concrete read-only transaction and Set. -/
theorem c6_readonly_tx_rejected_witness :
    SetColl.Add { tx := some { txid := 2, readonly := true } } c4EmptySharedSet "e"
      = { panic := some .effectsNotAllowedInReadonlyTx, state := c4EmptySharedSet }
    ∧ SetColl.Remove { tx := some { txid := 2, readonly := true } } c4EmptySharedSet "e"
      = { panic := some .effectsNotAllowedInReadonlyTx, state := c4EmptySharedSet } :=
  c6_readonly_tx_rejected c4EmptySharedSet { tx := some { txid := 2, readonly := true } }
    { txid := 2, readonly := true } "e" rfl rfl rfl

/-- Claim C4 as stated is false on the source: after Add(e) under the active
transaction and before that transaction ends, Has(e) evaluated from a context
with no transaction returns true, not false — getElem searches the pending
inclusions regardless of the caller's transaction. -/
theorem c4_counterexample :
    (SetColl.Add c4CtxWithTx c4EmptySharedSet "e").panic = none
    ∧ SetColl.Has c4CtxWithTx c4AfterAdd "e" = true
    ∧ SetColl.Has c4CtxNoTx c4AfterAdd "e" = true := by
  refine ⟨by decide, by decide, by decide⟩

/-- Helper: removing a string that is not in the list is a no-op. -/
theorem removeFirstOcc_of_not_mem (l : List String) (a : String) (h : a ∉ l) :
    removeFirstOcc l a = l := by
  induction l with
  | nil => rfl
  | cons x xs ih =>
    unfold removeFirstOcc
    rw [List.mem_cons, not_or] at h
    rw [if_neg (fun hx => h.1 hx.symm), ih h.2]

/-- Helper: lookup distributes over list append, preferring the left part. -/
theorem assocFind_append (l1 l2 : List (String × String)) (k : String) :
    assocFind (l1 ++ l2) k =
      match assocFind l1 k with
      | some v => some v
      | none => assocFind l2 k := by
  induction l1 with
  | nil => simp [assocFind]
  | cons kv rest ih =>
    rcases kv with ⟨k2, v⟩
    simp only [List.cons_append, assocFind]
    by_cases h : k2 = k
    · simp [h]
    · simp only [if_neg h]
      exact ih

/-- Helper: a map write preserves the presence of any bound key and binds the
written key. -/
theorem assocFind_assocSet_isSome (m : List (String × String)) (k2 v k : String)
    (h : (assocFind m k).isSome = true ∨ k2 = k) :
    (assocFind (assocSet m k2 v) k).isSome = true := by
  induction m with
  | nil =>
    rcases h with h | h
    · simp [assocFind] at h
    · simp [assocSet, assocFind, h]
  | cons kv rest ih =>
    rcases kv with ⟨k3, v3⟩
    simp only [assocFind] at h
    simp only [assocSet]
    by_cases h3 : k3 = k2
    · rw [if_pos h3]
      simp only [assocFind]
      by_cases hk : k3 = k
      · simp [hk]
      · rw [if_neg hk] at h ⊢
        rcases h with h | h
        · exact h
        · exact absurd (h3.trans h) hk
    · rw [if_neg h3]
      simp only [assocFind]
      by_cases hk : k3 = k
      · simp [hk]
      · rw [if_neg hk] at h ⊢
        rcases h with h | h
        · exact ih (Or.inl h)
        · exact ih (Or.inr h)

/-- Helper: writing all pending inclusions into the element map keeps a key
present when it is bound among the inclusions or already present. -/
theorem assocFind_foldl_assocSet_isSome (incl : List (String × String))
    (m : List (String × String)) (k : String)
    (h : (assocFind incl k).isSome = true ∨ (assocFind m k).isSome = true) :
    (assocFind (incl.foldl (fun m2 kv => assocSet m2 kv.1 kv.2) m) k).isSome = true := by
  induction incl generalizing m with
  | nil =>
    rcases h with h | h
    · simp [assocFind] at h
    · simpa using h
  | cons kv rest ih =>
    rcases kv with ⟨k2, v2⟩
    simp only [List.foldl_cons]
    apply ih
    simp only [assocFind] at h
    by_cases h2 : k2 = k
    · right
      exact assocFind_assocSet_isSome m k2 v2 k (Or.inr h2)
    · rw [if_neg h2] at h
      rcases h with h | h
      · exact Or.inl h
      · right
        exact assocFind_assocSet_isSome m k2 v2 k (Or.inl h)

/-- Helper: deleting a different key does not change a lookup. -/
theorem assocFind_assocErase_ne (m : List (String × String)) (k2 k : String)
    (h : k2 ≠ k) : assocFind (assocErase m k2) k = assocFind m k := by
  induction m with
  | nil => rfl
  | cons kv rest ih =>
    rcases kv with ⟨k3, v3⟩
    simp only [assocErase]
    by_cases h3 : k3 = k2
    · rw [if_pos h3]
      simp only [assocFind]
      rw [if_neg (fun hk => h (h3.symm.trans hk))]
    · rw [if_neg h3]
      simp only [assocFind]
      by_cases hk : k3 = k
      · simp [hk]
      · rw [if_neg hk, if_neg hk]
        exact ih

/-- Helper: deleting the pending removals does not change the lookup of a key
that is not among them. -/
theorem assocFind_foldl_assocErase (ks : List String) (m : List (String × String))
    (k : String) (h : k ∉ ks) :
    assocFind (ks.foldl (fun m2 k2 => assocErase m2 k2) m) k = assocFind m k := by
  induction ks generalizing m with
  | nil => simp
  | cons k2 rest ih =>
    rw [List.mem_cons, not_or] at h
    simp only [List.foldl_cons]
    rw [ih (assocErase m k2) h.2, assocFind_assocErase_ne m k2 k (fun he => h.1 he.symm)]

/-- Helper: Has returns true in any context when the key is not pending
removal and is bound among the committed elements or the pending
inclusions. -/
theorem setHasOfPresent (st : SetColl.SetState) (e : SetColl.Elem)
    (h1 : e ∉ st.pendingRemovals)
    (h2 : (assocFind st.elementByKey e).isSome = true
      ∨ (assocFind st.elementByKey e = none
          ∧ (assocFind st.pendingInclusions e).isSome = true)) :
    ∀ ctx, SetColl.Has ctx st e = true := by
  intro ctx
  unfold SetColl.Has SetColl.hasNoLock SetColl.getElem SetColl.getUniqueKey
  rw [if_neg h1]
  rcases h2 with h2 | ⟨h2a, h2b⟩
  · obtain ⟨v, hv⟩ := Option.isSome_iff_exists.mp h2
    rw [hv]
    rfl
  · rw [h2a]
    obtain ⟨v, hv⟩ := Option.isSome_iff_exists.mp h2b
    simp [hv]

/-- Claim C4, amended: on a shared Set, after Add(e) under an active writable
transaction and before that transaction ends, Has(e) returns true both under
the transaction and from a context with no transaction (the pending inclusion
is visible to every reader, because getElem does not filter by transaction);
after the commit of the transaction, Has(e) from a context with no
transaction still returns true. -/
theorem c4_amended (s : SetColl.SetState) (e : SetColl.Elem) (tx : SetColl.Tx)
    (hShared : s.shared = true) (hRo : tx.readonly = false)
    (hAbsent : assocFind s.elementByKey e = none)
    (hNotRemoved : e ∉ s.pendingRemovals) :
    (SetColl.Add { tx := some tx } s e).panic = none
    ∧ SetColl.Has { tx := some tx } (SetColl.Add { tx := some tx } s e).state e = true
    ∧ SetColl.Has { tx := none } (SetColl.Add { tx := some tx } s e).state e = true
    ∧ SetColl.Has { tx := none }
        (SetColl.Commit tx (SetColl.Add { tx := some tx } s e).state) e = true := by
  set s2 := SetColl.addPendingInclusion (SetColl.removePendingRemoval s e) e e with hs2
  have hNoPersist :
      SetColl.addToSharedSetNoPersist { tx := some tx } s e false
        = { panic := none, state := s2 } := by
    unfold SetColl.addToSharedSetNoPersist
    simp [SetColl.getUniqueKey, hAbsent]
  have hPR : s2.pendingRemovals = s.pendingRemovals := by
    rw [hs2]
    unfold SetColl.addPendingInclusion SetColl.removePendingRemoval
    split <;> simp [removeFirstOcc_of_not_mem _ _ hNotRemoved]
  have hEBK : s2.elementByKey = s.elementByKey := by
    rw [hs2]
    unfold SetColl.addPendingInclusion SetColl.removePendingRemoval
    split <;> rfl
  have hIncl : (assocFind s2.pendingInclusions e).isSome = true := by
    rw [hs2]
    unfold SetColl.addPendingInclusion
    split
    · next hsome => simpa [SetColl.removePendingRemoval] using hsome
    · next hnone =>
      show (assocFind ((SetColl.removePendingRemoval s e).pendingInclusions ++ [(e, e)]) e).isSome
        = true
      rw [assocFind_append]
      cases hfind : assocFind (SetColl.removePendingRemoval s e).pendingInclusions e
      · simp [assocFind]
      · simp
  have hAdd : SetColl.Add { tx := some tx } s e =
      { panic := none,
        state :=
          if tx.txid ∈ s2.transactionsWithSetEndCallback then s2
          else
            { s2 with
              transactionsWithSetEndCallback :=
                s2.transactionsWithSetEndCallback ++ [tx.txid] } } := by
    unfold SetColl.Add
    rw [hShared]
    simp only [Bool.not_true, Bool.false_eq_true, if_false]
    have hAny : (Option.some tx).any (fun t => t.readonly) = false := by simp [hRo]
    simp only [hAny, Bool.false_eq_true, if_false]
    rw [hNoPersist]
    split
    · next p heq => simp at heq
    · next heq =>
      by_cases hm : tx.txid ∈ s2.transactionsWithSetEndCallback
      · rw [if_pos hm, if_pos hm]
      · rw [if_neg hm, if_neg hm]
  rw [hAdd]
  by_cases hmem : tx.txid ∈ s2.transactionsWithSetEndCallback
  · rw [if_pos hmem]
    refine ⟨rfl, ?_, ?_, ?_⟩
    · exact setHasOfPresent s2 e (hPR ▸ hNotRemoved) (Or.inr ⟨hEBK ▸ hAbsent, hIncl⟩) _
    · exact setHasOfPresent s2 e (hPR ▸ hNotRemoved) (Or.inr ⟨hEBK ▸ hAbsent, hIncl⟩) _
    · show SetColl.Has { tx := none } (SetColl.Commit tx s2) e = true
      unfold SetColl.Commit
      rw [if_pos hmem]
      unfold SetColl.applyTransactionEndCallback
      simp only [if_pos rfl]
      apply setHasOfPresent
      · simp
      · left
        show (assocFind
            (s2.pendingRemovals.foldl (fun m k => assocErase m k)
              (s2.pendingInclusions.foldl (fun m2 kv => assocSet m2 kv.1 kv.2) s2.elementByKey))
            e).isSome = true
        rw [assocFind_foldl_assocErase _ _ _ (hPR ▸ hNotRemoved)]
        exact assocFind_foldl_assocSet_isSome _ _ _ (Or.inl hIncl)
  · rw [if_neg hmem]
    set s3 : SetColl.SetState :=
      { s2 with
        transactionsWithSetEndCallback := s2.transactionsWithSetEndCallback ++ [tx.txid] }
      with hs3
    have hPR3 : s3.pendingRemovals = s.pendingRemovals := hPR
    have hEBK3 : s3.elementByKey = s.elementByKey := hEBK
    have hIncl3 : (assocFind s3.pendingInclusions e).isSome = true := hIncl
    have hmem3 : tx.txid ∈ s3.transactionsWithSetEndCallback := by
      rw [hs3]
      simp
    refine ⟨rfl, ?_, ?_, ?_⟩
    · exact setHasOfPresent s3 e (hPR3 ▸ hNotRemoved) (Or.inr ⟨hEBK3 ▸ hAbsent, hIncl3⟩) _
    · exact setHasOfPresent s3 e (hPR3 ▸ hNotRemoved) (Or.inr ⟨hEBK3 ▸ hAbsent, hIncl3⟩) _
    · show SetColl.Has { tx := none } (SetColl.Commit tx s3) e = true
      unfold SetColl.Commit
      rw [if_pos hmem3]
      unfold SetColl.applyTransactionEndCallback
      simp only [if_pos rfl]
      apply setHasOfPresent
      · simp
      · left
        show (assocFind
            (s3.pendingRemovals.foldl (fun m k => assocErase m k)
              (s3.pendingInclusions.foldl (fun m2 kv => assocSet m2 kv.1 kv.2) s3.elementByKey))
            e).isSome = true
        rw [assocFind_foldl_assocErase _ _ _ (hPR3 ▸ hNotRemoved)]
        exact assocFind_foldl_assocSet_isSome _ _ _ (Or.inl hIncl3)

/-- Witness for the amended claim C4 at a fresh shared Set, the element e and
a concrete writable transaction. -/
theorem c4_amended_witness :
    (SetColl.Add { tx := some c4Tx } c4EmptySharedSet "e").panic = none
    ∧ SetColl.Has { tx := some c4Tx }
        (SetColl.Add { tx := some c4Tx } c4EmptySharedSet "e").state "e" = true
    ∧ SetColl.Has { tx := none }
        (SetColl.Add { tx := some c4Tx } c4EmptySharedSet "e").state "e" = true
    ∧ SetColl.Has { tx := none }
        (SetColl.Commit c4Tx (SetColl.Add { tx := some c4Tx } c4EmptySharedSet "e").state) "e"
      = true :=
  c4_amended c4EmptySharedSet "e" c4Tx rfl rfl rfl (by decide)

/-- Claim C8: after a watched child has been replaced (set-at-index or
set-slice), mutations of the replaced child no longer reach the watchers of
the parent; mutations of the replacing child do.  Proved on the model built
from the spec (the mutation bus implementation is not under src/). -/
theorem c8_reparenting (w : MutationModel.WatchedList) (i oldId newId : Nat)
    (hGet : w.elems.get? i = some oldId) (hNe : newId ≠ oldId) :
    MutationModel.childMutationFires (MutationModel.setElemAt w i newId) oldId = false
    ∧ MutationModel.childMutationFires (MutationModel.setElemAt w i newId) newId = true := by
  unfold MutationModel.setElemAt
  rw [hGet]
  unfold MutationModel.childMutationFires MutationModel.removeAllNat
  constructor
  · simp only [decide_eq_false_iff_not]
    intro hmem
    rcases List.mem_append.mp hmem with hmem | hmem
    · have hprop := (List.mem_filter.mp hmem).2
      simp at hprop
    · simp at hmem
      exact hNe hmem.symm
  · simp

/-- Witness for claim C8: the single-element list [1] watched, its element
replaced by 2. -/
theorem c8_reparenting_witness :
    MutationModel.childMutationFires
        (MutationModel.setElemAt (MutationModel.watchList [1]) 0 2) 1 = false
    ∧ MutationModel.childMutationFires
        (MutationModel.setElemAt (MutationModel.watchList [1]) 0 2) 2 = true :=
  c8_reparenting (MutationModel.watchList [1]) 0 1 2 (by decide) (by decide)

/-- Helper: the CPU-time fold leaves the accumulator unchanged over a
timeline with no active slice. -/
theorem cpuChargeAuxZero (timeline : List CpuTime.Slice)
    (hIdle : ∀ sl ∈ timeline, sl.phase ≠ CpuTime.Phase.active) :
    ∀ acc, timeline.foldl
        (fun acc2 s => match s.phase with | .active => acc2 + s.nanos | _ => acc2) acc
      = acc := by
  induction timeline with
  | nil => intro acc; rfl
  | cons sl rest ih =>
    intro acc
    have hsl := hIdle sl (by simp)
    have hrest : ∀ s ∈ rest, s.phase ≠ CpuTime.Phase.active :=
      fun s hs => hIdle s (by simp [hs])
    simp only [List.foldl_cons]
    cases hph : sl.phase
    · exact absurd hph hsl
    · exact ih hrest acc
    · exact ih hrest acc
    · exact ih hrest acc

/-- Claim C9: wall-clock time a context spends sleeping, blocked on a lock
owned by a foreign context, or paused after a yield contributes zero to the
CPU-time counter, so a context whose whole timeline is idle is not cancelled
by a positive CPU-time limit.  Proved on the decrementer model built from the
spec (the limit engine implementation is not under src/). -/
theorem c9_idle_time_not_charged (timeline : List CpuTime.Slice) (limit : Nat)
    (hIdle : ∀ sl ∈ timeline, sl.phase ≠ CpuTime.Phase.active) (hPos : 0 < limit) :
    CpuTime.cpuCharge timeline = 0
    ∧ CpuTime.cancelledByCpuLimit limit timeline = false := by
  have hchg : CpuTime.cpuCharge timeline = 0 := by
    unfold CpuTime.cpuCharge
    exact cpuChargeAuxZero timeline hIdle 0
  refine ⟨hchg, ?_⟩
  unfold CpuTime.cancelledByCpuLimit
  rw [hchg]
  simp only [decide_eq_false_iff_not]
  omega

/-- Witness for claim C9: a 50 millisecond CPU-time limit and a timeline that
only sleeps 100 milliseconds, in nanoseconds. -/
theorem c9_idle_time_not_charged_witness :
    CpuTime.cpuCharge [{ phase := .sleeping, nanos := 100000000 }] = 0
    ∧ CpuTime.cancelledByCpuLimit 50000000 [{ phase := .sleeping, nanos := 100000000 }]
      = false :=
  c9_idle_time_not_charged [{ phase := .sleeping, nanos := 100000000 }] 50000000
    (by intro sl hsl; simp at hsl; rw [hsl]; decide) (by decide)

/-- Helper: truncated division against a nonnegative bound, positive
divisor. -/
theorem tdivPosMaxIff (l r M : Int) (hr : 0 < r) (hM : 0 ≤ M) :
    l ≤ M.tdiv r ↔ l * r ≤ M := by
  rw [Int.tdiv_eq_ediv hM (le_of_lt hr)]
  exact Int.le_ediv_iff_mul_le hr

/-- Helper: truncated division against a nonpositive bound, positive
divisor. -/
theorem tdivPosMinIff (l r N : Int) (hr : 0 < r) (hN : 0 ≤ N) :
    l < (-N).tdiv r ↔ l * r < -N := by
  rw [Int.neg_tdiv, Int.tdiv_eq_ediv hN (le_of_lt hr)]
  have h2 : -l ≤ N / r ↔ -l * r ≤ N := Int.le_ediv_iff_mul_le hr
  have h3 : -l * r = -(l * r) := by ring
  rw [h3] at h2
  constructor
  · intro h
    by_contra hc
    push_neg at hc
    have h4 : -l ≤ N / r := h2.mpr (by omega)
    omega
  · intro h
    by_contra hc
    push_neg at hc
    have h4 : -l ≤ N / r := by omega
    have h5 := h2.mp h4
    omega

/-- Helper: truncated division against a nonnegative bound, negative
divisor. -/
theorem tdivNegMaxIff (l r M : Int) (hr : r < 0) (hM : 0 ≤ M) :
    l < M.tdiv r ↔ M < l * r := by
  have h1 : M.tdiv r = -(M.tdiv (-r)) := by
    rw [← Int.tdiv_neg, neg_neg]
  rw [h1, Int.tdiv_eq_ediv hM (by omega)]
  have h2 : -l ≤ M / (-r) ↔ -l * -r ≤ M := Int.le_ediv_iff_mul_le (by omega)
  have h3 : -l * -r = l * r := by ring
  rw [h3] at h2
  constructor
  · intro h
    by_contra hc
    push_neg at hc
    have h4 : -l ≤ M / (-r) := h2.mpr (by omega)
    omega
  · intro h
    by_contra hc
    push_neg at hc
    have h4 : -l ≤ M / (-r) := by omega
    have h5 := h2.mp h4
    omega

/-- Helper: truncated division against a nonpositive bound, negative
divisor. -/
theorem tdivNegMinIff (l r N : Int) (hr : r < 0) (hN : 0 ≤ N) :
    (-N).tdiv r < l ↔ l * r < -N := by
  have h1 : (-N).tdiv r = N.tdiv (-r) := by
    rw [← Int.neg_tdiv_neg N (-r), neg_neg]
  rw [h1, Int.tdiv_eq_ediv hN (by omega)]
  have h2 : l ≤ N / (-r) ↔ l * -r ≤ N := Int.le_ediv_iff_mul_le (by omega)
  have h3 : l * -r = -(l * r) := by ring
  rw [h3] at h2
  constructor
  · intro h
    by_contra hc
    push_neg at hc
    have h4 : l ≤ N / (-r) := h2.mpr (by omega)
    omega
  · intro h
    by_contra hc
    push_neg at hc
    have h5 := h2.mp hc
    omega

/-- Helper: the smallest 64-bit integer as a negated positive literal. -/
theorem minIsNegBig : minInt64 = -(9223372036854775808 : Int) := by decide

/-- Claim C10: for 64-bit operands, intAdd, intSub and intMul return the
exact mathematical result whenever it is representable in a signed 64-bit
integer and an overflow or underflow error otherwise (never a wrapped
value); intDiv reports division by zero when r is zero, overflow exactly for
MinInt64 divided by -1, and otherwise the exact quotient truncated toward
zero. -/
theorem c10_int_arithmetic_exact (l r : Int) (hl : inRange64 l) (hr : inRange64 r) :
    (intAdd l r = if inRange64 (l + r) then .ok (l + r)
      else if maxInt64 < l + r then .error .overflow else .error .underflow)
    ∧ (intSub l r = if inRange64 (l - r) then .ok (l - r)
      else if maxInt64 < l - r then .error .overflow else .error .underflow)
    ∧ (inRange64 (l * r) → intMul l r = .ok (l * r))
    ∧ (¬ inRange64 (l * r) →
        intMul l r = .error .overflow ∨ intMul l r = .error .underflow)
    ∧ (r = 0 → intDiv l r = .error .divisionByZero)
    ∧ (l = minInt64 ∧ r = -1 → intDiv l r = .error .overflow)
    ∧ (r ≠ 0 → ¬(l = minInt64 ∧ r = -1) → intDiv l r = .ok (l.tdiv r)) := by
  have hM : (0 : Int) ≤ maxInt64 := by decide
  have hN : (0 : Int) ≤ (9223372036854775808 : Int) := by decide
  refine ⟨?_, ?_, ?_, ?_, ?_, ?_, ?_⟩
  · simp only [intAdd, inRange64, maxInt64, minInt64] at hl hr ⊢
    split_ifs <;> first | rfl | (exfalso; omega)
  · simp only [intSub, inRange64, maxInt64, minInt64] at hl hr ⊢
    split_ifs <;> first | rfl | (exfalso; omega)
  · intro hRange
    unfold intMul
    rcases lt_trichotomy r 0 with hneg | hzero | hpos
    · rw [if_neg (by omega), if_pos hneg]
      by_cases hm1 : r = -1
      · subst hm1
        rw [if_pos rfl]
        have hlm : l ≠ minInt64 := by
          intro hEq
          rcases hRange with ⟨hR1, hR2⟩
          have hml : l * (-1) = -l := by ring
          rw [hml] at hR1 hR2
          rw [minIsNegBig] at hEq
          rw [maxInt64] at hR2
          omega
        rw [if_neg hlm]
      · rw [if_neg hm1]
        have hA : ¬ l < maxInt64.tdiv r := by
          rw [tdivNegMaxIff l r maxInt64 hneg hM]
          exact not_lt.mpr hRange.2
        have hB : ¬ minInt64.tdiv r < l := by
          rw [minIsNegBig, tdivNegMinIff l r _ hneg hN]
          rw [← minIsNegBig]
          exact not_lt.mpr hRange.1
        rw [if_neg (by push_neg; exact ⟨le_of_not_lt hA, le_of_not_lt hB⟩)]
    · subst hzero
      simp
    · rw [if_pos hpos]
      have hA : ¬ maxInt64.tdiv r < l := by
        rw [not_lt]
        exact (tdivPosMaxIff l r maxInt64 hpos hM).mpr hRange.2
      have hB : ¬ l < minInt64.tdiv r := by
        rw [minIsNegBig, tdivPosMinIff l r _ hpos hN, ← minIsNegBig]
        exact not_lt.mpr hRange.1
      rw [if_neg (by push_neg; exact ⟨le_of_not_lt hA, le_of_not_lt hB⟩)]
  · intro hRange
    unfold intMul
    rcases lt_trichotomy r 0 with hneg | hzero | hpos
    · rw [if_neg (by omega), if_pos hneg]
      by_cases hm1 : r = -1
      · subst hm1
        rw [if_pos rfl]
        have hlm : l = minInt64 := by
          by_contra hc
          apply hRange
          have hml : l * (-1) = -l := by ring
          rw [hml]
          simp only [inRange64, maxInt64, minInt64] at hl ⊢
          simp only [maxInt64, minInt64] at *
          omega
        rw [if_pos hlm]
        left
        rfl
      · rw [if_neg hm1]
        have hguard : l < maxInt64.tdiv r ∨ minInt64.tdiv r < l := by
          simp only [inRange64, not_and_or, not_le] at hRange
          rcases hRange with hR | hR
          · right
            rw [minIsNegBig, tdivNegMinIff l r _ hneg hN, ← minIsNegBig]
            exact hR
          · left
            rw [tdivNegMaxIff l r maxInt64 hneg hM]
            exact hR
        rw [if_pos hguard]
        right
        rfl
    · exfalso
      subst hzero
      apply hRange
      simp [inRange64]
      constructor <;> decide
    · rw [if_pos hpos]
      have hguard : maxInt64.tdiv r < l ∨ l < minInt64.tdiv r := by
        simp only [inRange64, not_and_or, not_le] at hRange
        rcases hRange with hR | hR
        · right
          rw [minIsNegBig, tdivPosMinIff l r _ hpos hN, ← minIsNegBig]
          exact hR
        · left
          by_contra hc
          push_neg at hc
          exact absurd ((tdivPosMaxIff l r maxInt64 hpos hM).mp hc) (not_le.mpr hR)
      rw [if_pos hguard]
      left
      rfl
  · intro h0
    unfold intDiv
    rw [if_pos h0]
  · rintro ⟨h1, h2⟩
    unfold intDiv
    rw [if_neg (by rw [h2]; decide), if_pos ⟨h1, h2⟩]
  · intro h0 hnot
    unfold intDiv
    rw [if_neg h0, if_neg hnot]

/-- Witness for claim C10 at the operands 3 and 5. -/
theorem c10_int_arithmetic_exact_witness :
    intAdd 3 5 = .ok 8 ∧ intSub 3 5 = .ok (-2) ∧ intMul 3 5 = .ok 15
    ∧ intDiv 3 5 = .ok 0 := by
  obtain ⟨h1, h2, h3, _, _, _, h7⟩ := c10_int_arithmetic_exact 3 5 (by decide) (by decide)
  refine ⟨?_, ?_, ?_, ?_⟩
  · rw [h1]
    decide
  · rw [h2]
    decide
  · rw [h3 (by decide)]
    decide
  · rw [h7 (by decide) (by decide)]
    decide

/-- Helper: permission-kind inclusion is reflexive. -/
theorem permKindIncludesRefl : ∀ k : PermissionKind, k.Includes k = true := by decide

/-- Helper: permission-kind inclusion is transitive. -/
theorem permKindIncludesTrans : ∀ k1 k2 k3 : PermissionKind,
    k1.Includes k2 = true → k2.Includes k3 = true → k1.Includes k3 = true := by decide

/-- Helper: only the provide kind includes the provide kind. -/
theorem permKindIncludesProvide : ∀ k : PermissionKind,
    k.Includes .provide = true → k = .provide := by decide

/-- Helper: takeWhile passes over a prefix it wholly accepts. -/
theorem takeWhileAppendAll (p : Char → Bool) (a b : List Char) (h : ∀ c ∈ a, p c = true) :
    (a ++ b).takeWhile p = a ++ b.takeWhile p := by
  induction a with
  | nil => simp
  | cons c cs ih =>
    simp only [List.cons_append, List.takeWhile_cons]
    rw [if_pos (h c (by simp))]
    rw [ih (fun c2 hc2 => h c2 (by simp [hc2]))]

/-- Helper: takeWhile stops exactly at the first rejected character. -/
theorem takeWhileAppendStop (p : Char → Bool) (a : List Char) (c0 : Char) (b : List Char)
    (h : ∀ c ∈ a, p c = true) (hc : p c0 = false) :
    (a ++ c0 :: b).takeWhile p = a := by
  induction a with
  | nil => simp [List.takeWhile_cons, hc]
  | cons c cs ih =>
    simp only [List.cons_append, List.takeWhile_cons]
    rw [if_pos (h c (by simp))]
    rw [ih (fun c2 hc2 => h c2 (by simp [hc2]))]

/-- Helper: dropWhile passes over a prefix it wholly accepts. -/
theorem dropWhileAppendAll (p : Char → Bool) (a b : List Char) (h : ∀ c ∈ a, p c = true) :
    (a ++ b).dropWhile p = b.dropWhile p := by
  induction a with
  | nil => simp
  | cons c cs ih =>
    simp only [List.cons_append, List.dropWhile_cons]
    rw [if_pos (h c (by simp))]
    exact ih (fun c2 hc2 => h c2 (by simp [hc2]))

/-- Helper: the query-stripped form of a well-formed URL is nonempty. -/
theorem stripQuery_ne_empty (u : String) (h : WellFormedURL u) : goStripQuery u ≠ "" := by
  obtain ⟨sch, host, rest, hdecomp, hne, hclean, _, _, _⟩ := h
  intro heq
  have hdata : (goStripQuery u).data = [] := by rw [heq]
  unfold goStripQuery at hdata
  rw [hdecomp] at hdata
  cases sch with
  | nil => exact hne rfl
  | cons c cs =>
    simp only [List.cons_append, List.takeWhile_cons] at hdata
    rw [if_pos (by simp [(hclean c (by simp)).2.2])] at hdata
    simp at hdata

/-- Helper: stripping the query of a well-formed URL strips within the part
after the host. -/
theorem stripQueryDecomp (sch host rest : List Char)
    (hsch : ∀ c ∈ sch, c ≠ '?') (hhost : ∀ c ∈ host, c ≠ '?') :
    (sch ++ ':' :: '/' :: '/' :: (host ++ rest)).takeWhile (fun c => c ≠ '?')
      = sch ++ ':' :: '/' :: '/' :: (host ++ rest.takeWhile (fun c => c ≠ '?')) := by
  rw [takeWhileAppendAll _ _ _ (fun c hc => by simp [hsch c hc])]
  simp only [List.takeWhile_cons]
  rw [if_pos (by decide), if_pos (by decide), if_pos (by decide)]
  rw [takeWhileAppendAll _ _ _ (fun c hc => by simp [hhost c hc])]

/-- Helper: stripping the query of a well-formed URL does not change its
scheme. -/
theorem urlSchemeStr_strip (u : String) (h : WellFormedURL u) :
    urlSchemeStr (goStripQuery u) = urlSchemeStr u := by
  obtain ⟨sch, host, rest, hdecomp, hne, hclean, hhne, hhclean, hshape⟩ := h
  unfold urlSchemeStr goStripQuery
  have hXY : ((u.data.takeWhile (fun c => c ≠ '?')).takeWhile (fun c => c ≠ ':'))
      = u.data.takeWhile (fun c => c ≠ ':') := by
    rw [hdecomp]
    rw [stripQueryDecomp sch host rest (fun c hc => (hclean c hc).2.2)
      (fun c hc => (hhclean c hc).2.2)]
    rw [takeWhileAppendStop _ _ _ _ (fun c hc => by simp [(hclean c hc).1]) (by decide)]
    rw [takeWhileAppendStop _ _ _ _ (fun c hc => by simp [(hclean c hc).1]) (by decide)]
  rw [hXY]

/-- Helper: stripping the query of a well-formed URL does not change its host
component. -/
theorem urlHostStr_strip (u : String) (h : WellFormedURL u) :
    urlHostStr (goStripQuery u) = urlHostStr u := by
  obtain ⟨sch, host, rest, hdecomp, hne, hclean, hhne, hhclean, hshape⟩ := h
  unfold urlHostStr goStripQuery
  have hXY : (((u.data.takeWhile (fun c => c ≠ '?')).dropWhile (fun c => c ≠ ':')).drop
          3).takeWhile (fun c => c ≠ '/' && c ≠ '?')
      = ((u.data.dropWhile (fun c => c ≠ ':')).drop 3).takeWhile
          (fun c => c ≠ '/' && c ≠ '?') := by
    rw [hdecomp]
    rw [stripQueryDecomp sch host rest (fun c hc => (hclean c hc).2.2)
      (fun c hc => (hhclean c hc).2.2)]
    rw [dropWhileAppendAll _ _ _ (fun c hc => by simp [(hclean c hc).1])]
    rw [dropWhileAppendAll _ _ _ (fun c hc => by simp [(hclean c hc).1])]
    simp only [List.dropWhile_cons]
    rw [if_neg (by decide), if_neg (by decide)]
    simp only [List.drop_succ_cons, List.drop_zero]
    rw [takeWhileAppendAll _ _ _
      (fun c hc => by simp [(hhclean c hc).2.1, (hhclean c hc).2.2])]
    rw [takeWhileAppendAll _ _ _
      (fun c hc => by simp [(hhclean c hc).2.1, (hhclean c hc).2.2])]
    have hrest : (rest.takeWhile (fun c => c ≠ '?')).takeWhile (fun c => c ≠ '/' && c ≠ '?')
        = rest.takeWhile (fun c => c ≠ '/' && c ≠ '?') := by
      rcases hshape with hsh | ⟨r2, hsh⟩ | ⟨r2, hsh⟩ <;> rw [hsh] <;> rfl
    rw [hrest]
  rw [hXY]

/-- Helper: permission inclusion is reflexive on literal, well-formed
subjects. -/
theorem permIncludesReflLiteral (p : Permission) (hp : LiteralWF p) : p.Includes p = true := by
  cases p with
  | globalVar k n => simp [Permission.Includes, permKindIncludesRefl]
  | envVar k n => simp [Permission.Includes, permKindIncludesRefl]
  | routine k => simp [Permission.Includes, permKindIncludesRefl]
  | filesystem k e =>
    cases e with
    | path p1 => simp [Permission.Includes, permKindIncludesRefl]
    | pathPattern patt => simp [LiteralWF] at hp
  | http k e =>
    cases e with
    | url u =>
      simp only [Permission.Includes, httpEntityIncludes, httpUrlIncludes,
        permKindIncludesRefl, Bool.true_and]
      by_cases hq : goRawQuery u == ""
      · rw [if_pos hq]
        simp
      · rw [if_neg hq]
        simp
    | host h2 => simp [Permission.Includes, httpEntityIncludes, permKindIncludesRefl]
    | urlPattern _ => simp [LiteralWF] at hp
    | hostPattern _ => simp [LiteralWF] at hp
  | websocket k ep => simp [Permission.Includes, permKindIncludesRefl]
  | dns k d =>
    cases d with
    | host h2 => simp [Permission.Includes, domainIncludes, permKindIncludesRefl]
    | hostPattern _ => simp [LiteralWF] at hp
  | rawTcp k d =>
    cases d with
    | host h2 => simp [Permission.Includes, domainIncludes, permKindIncludesRefl]
    | hostPattern _ => simp [LiteralWF] at hp
  | command n sub =>
    cases n with
    | str s => simp [Permission.Includes, commandNameIncludes, permKindIncludesRefl]
    | path p1 => simp [Permission.Includes, commandNameIncludes, permKindIncludesRefl]
    | pathPattern _ => simp [LiteralWF] at hp
  | systemGraph k => simp [Permission.Includes, permKindIncludesRefl]

/-- Helper: permission inclusion is transitive on literal, well-formed
subjects. -/
theorem permIncludesTransLiteral (p q r : Permission)
    (hp : LiteralWF p) (hq : LiteralWF q) (hr : LiteralWF r)
    (hpq : p.Includes q = true) (hqr : q.Includes r = true) : p.Includes r = true := by
  cases p with
  | globalVar k1 n1 =>
    cases q <;> simp only [Permission.Includes, Bool.false_eq_true] at hpq
    rename_i k2 n2
    cases r <;> simp only [Permission.Includes, Bool.false_eq_true] at hqr
    rename_i k3 n3
    simp only [Bool.and_eq_true, Bool.or_eq_true, beq_iff_eq] at hpq hqr
    simp only [Permission.Includes, Bool.and_eq_true, Bool.or_eq_true, beq_iff_eq]
    refine ⟨permKindIncludesTrans _ _ _ hpq.1 hqr.1, ?_⟩
    rcases hpq.2 with h | h
    · exact Or.inl h
    · rw [h]
      exact hqr.2
  | envVar k1 n1 =>
    cases q <;> simp only [Permission.Includes, Bool.false_eq_true] at hpq
    rename_i k2 n2
    cases r <;> simp only [Permission.Includes, Bool.false_eq_true] at hqr
    rename_i k3 n3
    simp only [Bool.and_eq_true, Bool.or_eq_true, beq_iff_eq] at hpq hqr
    simp only [Permission.Includes, Bool.and_eq_true, Bool.or_eq_true, beq_iff_eq]
    refine ⟨permKindIncludesTrans _ _ _ hpq.1 hqr.1, ?_⟩
    rcases hpq.2 with h | h
    · exact Or.inl h
    · rw [h]
      exact hqr.2
  | routine k1 =>
    cases q <;> simp only [Permission.Includes, Bool.false_eq_true] at hpq
    rename_i k2
    cases r <;> simp only [Permission.Includes, Bool.false_eq_true] at hqr
    rename_i k3
    simp only [Permission.Includes]
    exact permKindIncludesTrans _ _ _ hpq hqr
  | systemGraph k1 =>
    cases q <;> simp only [Permission.Includes, Bool.false_eq_true] at hpq
    rename_i k2
    cases r <;> simp only [Permission.Includes, Bool.false_eq_true] at hqr
    rename_i k3
    simp only [Permission.Includes]
    exact permKindIncludesTrans _ _ _ hpq hqr
  | websocket k1 ep1 =>
    cases q <;> simp only [Permission.Includes, Bool.false_eq_true] at hpq
    rename_i k2 ep2
    cases r <;> simp only [Permission.Includes, Bool.false_eq_true] at hqr
    rename_i k3 ep3
    simp only [Bool.and_eq_true, Bool.or_eq_true, beq_iff_eq] at hpq hqr
    simp only [Permission.Includes, Bool.and_eq_true, Bool.or_eq_true, beq_iff_eq]
    refine ⟨permKindIncludesTrans _ _ _ hpq.1 hqr.1, ?_⟩
    rcases hpq.2 with h | h
    · exact Or.inl h
    · rcases hqr.2 with h2 | h2
      · left
        have hik : k1.Includes .provide = true := by
          rw [← h2]
          exact hpq.1
        exact permKindIncludesProvide k1 hik
      · right
        rw [h, h2]
  | dns k1 d1 =>
    cases q <;> simp only [Permission.Includes, Bool.false_eq_true] at hpq
    rename_i k2 d2
    cases r <;> simp only [Permission.Includes, Bool.false_eq_true] at hqr
    rename_i k3 d3
    cases d1 with
    | hostPattern _ => simp [LiteralWF] at hp
    | host h1 =>
      simp only [Bool.and_eq_true] at hpq hqr
      simp only [Permission.Includes, Bool.and_eq_true]
      refine ⟨permKindIncludesTrans _ _ _ hpq.1 hqr.1, ?_⟩
      have he12 := hpq.2
      have he23 := hqr.2
      cases d2 with
      | hostPattern _ => simp [domainIncludes, Bool.false_eq_true] at he12
      | host h2 =>
        simp only [domainIncludes, beq_iff_eq] at he12
        rw [he12]
        exact he23
  | rawTcp k1 d1 =>
    cases q <;> simp only [Permission.Includes, Bool.false_eq_true] at hpq
    rename_i k2 d2
    cases r <;> simp only [Permission.Includes, Bool.false_eq_true] at hqr
    rename_i k3 d3
    cases d1 with
    | hostPattern _ => simp [LiteralWF] at hp
    | host h1 =>
      simp only [Bool.and_eq_true] at hpq hqr
      simp only [Permission.Includes, Bool.and_eq_true]
      refine ⟨permKindIncludesTrans _ _ _ hpq.1 hqr.1, ?_⟩
      have he12 := hpq.2
      have he23 := hqr.2
      cases d2 with
      | hostPattern _ => simp [domainIncludes, Bool.false_eq_true] at he12
      | host h2 =>
        simp only [domainIncludes, beq_iff_eq] at he12
        rw [he12]
        exact he23
  | command n1 sub1 =>
    cases q <;> simp only [Permission.Includes, Bool.false_eq_true] at hpq
    rename_i n2 sub2
    cases r <;> simp only [Permission.Includes, Bool.false_eq_true] at hqr
    rename_i n3 sub3
    simp only [Bool.and_eq_true, beq_iff_eq] at hpq hqr
    simp only [Permission.Includes, Bool.and_eq_true, beq_iff_eq]
    obtain ⟨⟨hk12, hn12⟩, hlen12, hsub12⟩ := hpq
    obtain ⟨⟨hk23, hn23⟩, hlen23, hsub23⟩ := hqr
    refine ⟨⟨hk12, ?_⟩, ?_, ?_⟩
    · cases n1 with
      | pathPattern _ => simp [LiteralWF] at hp
      | str s1 =>
        cases n2 with
        | str s2 =>
          simp only [commandNameIncludes, beq_iff_eq] at hn12
          rw [hn12]
          exact hn23
        | path _ => simp [commandNameIncludes, Bool.false_eq_true] at hn12
        | pathPattern _ => simp [commandNameIncludes, Bool.false_eq_true] at hn12
      | path p1 =>
        cases n2 with
        | path p2 =>
          simp only [commandNameIncludes, beq_iff_eq] at hn12
          rw [hn12]
          exact hn23
        | str _ => simp [commandNameIncludes, Bool.false_eq_true] at hn12
        | pathPattern _ => simp [commandNameIncludes, Bool.false_eq_true] at hn12
    · rw [hsub12]
      exact hlen23
    · rw [hsub12]
      exact hsub23
  | filesystem k1 e1 =>
    cases q <;> simp only [Permission.Includes, Bool.false_eq_true] at hpq
    rename_i k2 e2
    cases r <;> simp only [Permission.Includes, Bool.false_eq_true] at hqr
    rename_i k3 e3
    cases e1 with
    | pathPattern _ => simp [LiteralWF] at hp
    | path p1 =>
      simp only [Bool.and_eq_true] at hpq hqr
      simp only [Permission.Includes, Bool.and_eq_true]
      refine ⟨permKindIncludesTrans _ _ _ hpq.1 hqr.1, ?_⟩
      have he12 := hpq.2
      have he23 := hqr.2
      cases e2 with
      | pathPattern _ => simp [Bool.false_eq_true] at he12
      | path p2 =>
        simp only [beq_iff_eq] at he12
        rw [he12]
        exact he23
  | http k1 e1 =>
    cases q <;> simp only [Permission.Includes, Bool.false_eq_true] at hpq
    rename_i k2 e2
    cases r <;> simp only [Permission.Includes, Bool.false_eq_true] at hqr
    rename_i k3 e3
    simp only [Bool.and_eq_true] at hpq hqr
    simp only [Permission.Includes, Bool.and_eq_true]
    refine ⟨permKindIncludesTrans _ _ _ hpq.1 hqr.1, ?_⟩
    have he12 := hpq.2
    have he23 := hqr.2
    cases e1 with
    | urlPattern _ => simp [LiteralWF] at hp
    | hostPattern _ => simp [LiteralWF] at hp
    | url u1 =>
      have hwf1 : WellFormedURL u1 := by simpa [LiteralWF] using hp
      cases e2 with
      | urlPattern _ => simp [LiteralWF] at hq
      | hostPattern _ => simp [LiteralWF] at hq
      | host h2 =>
        exfalso
        simp only [httpEntityIncludes, httpUrlIncludes] at he12
        by_cases hq1 : goRawQuery u1 == ""
        · rw [if_pos hq1] at he12
          simp only [beq_iff_eq] at he12
          exact stripQuery_ne_empty u1 hwf1 he12
        · rw [if_neg hq1] at he12
          simp at he12
      | url u2 =>
        have hwf2 : WellFormedURL u2 := by simpa [LiteralWF] using hq
        simp only [httpEntityIncludes, httpUrlIncludes] at he12
        cases e3 with
        | urlPattern _ => simp [LiteralWF] at hr
        | hostPattern _ => simp [LiteralWF] at hr
        | host h3 =>
          exfalso
          simp only [httpEntityIncludes, httpUrlIncludes] at he23
          by_cases hq2 : goRawQuery u2 == ""
          · rw [if_pos hq2] at he23
            simp only [beq_iff_eq] at he23
            exact stripQuery_ne_empty u2 hwf2 he23
          · rw [if_neg hq2] at he23
            simp at he23
        | url u3 =>
          have hwf3 : WellFormedURL u3 := by simpa [LiteralWF] using hr
          simp only [httpEntityIncludes, httpUrlIncludes] at he23 ⊢
          by_cases hq1 : goRawQuery u1 == ""
          · rw [if_pos hq1] at he12 ⊢
            simp only [beq_iff_eq] at he12 ⊢
            by_cases hq2 : goRawQuery u2 == ""
            · rw [if_pos hq2] at he23
              simp only [beq_iff_eq] at he23
              rw [he12, he23]
            · rw [if_neg hq2] at he23
              simp only [Bool.true_and, beq_iff_eq] at he23
              rw [he12, he23]
          · rw [if_neg hq1] at he12 ⊢
            simp only [Bool.true_and, beq_iff_eq] at he12 ⊢
            subst he12
            rw [if_neg hq1] at he23
            simp only [Bool.true_and, beq_iff_eq] at he23
            exact he23
    | host h1 =>
      cases e2 with
      | urlPattern _ => simp [LiteralWF] at hq
      | hostPattern _ => simp [LiteralWF] at hq
      | host h2 =>
        simp only [httpEntityIncludes, beq_iff_eq] at he12
        subst he12
        exact he23
      | url u2 =>
        have hwf2 : WellFormedURL u2 := by simpa [LiteralWF] using hq
        simp only [httpEntityIncludes, Bool.and_eq_true, beq_iff_eq] at he12
        cases e3 with
        | urlPattern _ => simp [LiteralWF] at hr
        | hostPattern _ => simp [LiteralWF] at hr
        | host h3 =>
          exfalso
          simp only [httpEntityIncludes, httpUrlIncludes] at he23
          by_cases hq2 : goRawQuery u2 == ""
          · rw [if_pos hq2] at he23
            simp only [beq_iff_eq] at he23
            exact stripQuery_ne_empty u2 hwf2 he23
          · rw [if_neg hq2] at he23
            simp at he23
        | url u3 =>
          have hwf3 : WellFormedURL u3 := by simpa [LiteralWF] using hr
          simp only [httpEntityIncludes, httpUrlIncludes] at he23
          simp only [httpEntityIncludes, Bool.and_eq_true, beq_iff_eq]
          by_cases hq2 : goRawQuery u2 == ""
          · rw [if_pos hq2] at he23
            simp only [beq_iff_eq] at he23
            have hs : urlSchemeStr u3 = urlSchemeStr u2 := by
              rw [← urlSchemeStr_strip u3 hwf3, ← urlSchemeStr_strip u2 hwf2, he23]
            have hh : urlHostStr u3 = urlHostStr u2 := by
              rw [← urlHostStr_strip u3 hwf3, ← urlHostStr_strip u2 hwf2, he23]
            rw [hs, hh]
            exact he12
          · rw [if_neg hq2] at he23
            simp only [Bool.true_and, beq_iff_eq] at he23
            rw [← he23]
            exact he12

/-- Claim C5 as stated is false on the source: permission inclusion is not
transitive.  With prefix URL patterns the source tests whether the receiver
pattern extends the argument pattern (the more specific pattern includes the
more general one), so the pattern for https://x.com/a/ includes the pattern
for https://x.com/, that pattern includes the literal URL https://x.com/b,
yet the first pattern does not include that URL. -/
theorem c5_counterexample :
    Permission.Includes (.http .read (.urlPattern "https://x.com/a/..."))
        (.http .read (.urlPattern "https://x.com/...")) = true
    ∧ Permission.Includes (.http .read (.urlPattern "https://x.com/..."))
        (.http .read (.url "https://x.com/b")) = true
    ∧ Permission.Includes (.http .read (.urlPattern "https://x.com/a/..."))
        (.http .read (.url "https://x.com/b")) = false := by
  refine ⟨by decide, by decide, by decide⟩

/-- Claim C5, amended: permission-kind inclusion is reflexive and transitive,
and permission inclusion is reflexive and transitive on the permissions whose
subject is a literal (path, URL, host, endpoint or name, with URL subjects
well-formed) rather than a pattern; inclusion of pattern subjects is not
transitive (see the counterexample). -/
theorem c5_amended :
    (∀ k : PermissionKind, k.Includes k = true)
    ∧ (∀ k1 k2 k3 : PermissionKind,
        k1.Includes k2 = true → k2.Includes k3 = true → k1.Includes k3 = true)
    ∧ (∀ p : Permission, LiteralWF p → p.Includes p = true)
    ∧ (∀ p q r : Permission, LiteralWF p → LiteralWF q → LiteralWF r →
        p.Includes q = true → q.Includes r = true → p.Includes r = true) :=
  ⟨permKindIncludesRefl, permKindIncludesTrans, permIncludesReflLiteral,
    permIncludesTransLiteral⟩

/-- Witness for the amended claim C5 at concrete kinds and permissions. -/
theorem c5_amended_witness :
    PermissionKind.Includes .write .update = true
    ∧ Permission.Includes (.filesystem .read (.path "/tmp/a"))
        (.filesystem .read (.path "/tmp/a")) = true
    ∧ Permission.Includes (.http .read (.url "https://x.com/b"))
        (.http .read (.url "https://x.com/b")) = true
    ∧ Permission.Includes (.http .read (.url "https://x.com/b"))
        (.http .read (.url "https://x.com/b?x=1")) = true := by
  obtain ⟨hrefl, htrans, hprefl, hptrans⟩ := c5_amended
  have hwfB : WellFormedURL "https://x.com/b" :=
    ⟨"https".data, "x.com".data, "/b".data, by decide, by decide, by decide, by decide,
      by decide, Or.inr (Or.inl ⟨"b".data, by decide⟩)⟩
  have hwfQ : WellFormedURL "https://x.com/b?x=1" :=
    ⟨"https".data, "x.com".data, "/b?x=1".data, by decide, by decide, by decide, by decide,
      by decide, Or.inr (Or.inl ⟨"b?x=1".data, by decide⟩)⟩
  refine ⟨?_, ?_, ?_, ?_⟩
  · exact htrans .write .write .update (by decide) (by decide)
  · exact hprefl (.filesystem .read (.path "/tmp/a")) trivial
  · exact hprefl (.http .read (.url "https://x.com/b")) hwfB
  · exact hptrans (.http .read (.url "https://x.com/b"))
      (.http .read (.url "https://x.com/b?x=1")) (.http .read (.url "https://x.com/b?x=1"))
      hwfB hwfQ hwfQ (by decide) (by decide)
